import Mathlib

/-!
# Gannoy importer

A shallow embedding of `converter.go` (the tree-file importer `converter`, the
CSV importer `csvConverter`, the payload encoder `f2b`) and of the database
scan of `cmd/gannoy-ngt/main.go`, followed by the properties established about
them.

Conventions of the embedding.

* Go `int` and `int64` are `Int` with explicit two's-complement wrap-around at
  64 bits (`wrap64`), the width of `int` on the 64-bit platforms the tools are
  built for.
* Go strings and byte payloads are `List Char`; raw file bytes are `UInt8`.
* A `float64` is its IEEE-754 bit pattern.  `strconv.ParseFloat` and the digit
  generation of `strconv.FormatFloat` for finite values are library routines
  that are taken as parameters (`Strconv`); the non-finite cases of
  `FormatFloat`, which are decided on the bit pattern alone, are embedded.
* Calls into collaborators whose code is outside the importer (the file
  system, the index and its journal) succeed or fail as an environment `Env`
  says; what the importer did is recorded as a list of `Event`s.
* A Go run-time panic (index out of range, bad slice length) is the outcome
  `Outcome.panic`, distinct from a returned error.
-/

namespace Gannoy

/-! ## Machine integers and bytes -/

/-- Two's-complement wrap-around of a signed 64-bit result. -/
def wrap64 (x : Int) : Int := (x + 2 ^ 63) % 2 ^ 64 - 2 ^ 63

/-- Largest value of a signed 64-bit integer plus one. -/
def int64Bound : Int := 2 ^ 63

/-- The two values of `binary.ByteOrder` the command line selects between. -/
inductive ByteOrder
  | LittleEndian
  | BigEndian
  deriving DecidableEq, Repr

/-- Unsigned integer spelled by a byte string, least significant byte first. -/
def leUint : List UInt8 → Nat
  | [] => 0
  | b :: bs => b.toNat + 256 * leUint bs

/-- The method `order.Uint32` / `order.Uint64` on a byte string of the right length. -/
def ByteOrder.uint (order : ByteOrder) (bs : List UInt8) : Nat :=
  match order with
  | ByteOrder.LittleEndian => leUint bs
  | ByteOrder.BigEndian => leUint bs.reverse

/-- Conversion `int32(u)` of a 32-bit unsigned value. -/
def toInt32 (u : Nat) : Int :=
  if u % 2 ^ 32 < 2 ^ 31 then (u % 2 ^ 32 : Nat) else (u % 2 ^ 32 : Nat) - 2 ^ 32

/-- A `float64`, identified with its IEEE-754 bit pattern (`math.Float64bits`). -/
structure Float64 where
  bits : Nat
  deriving DecidableEq, Repr

/-- The zero value of `float64`, which `make([]float64, n)` fills a slice with. -/
def Float64.zero : Float64 := ⟨0⟩

/-- Biased exponent field of a `float64`. -/
def Float64.exp (f : Float64) : Nat := (f.bits / 2 ^ 52) % 2 ^ 11

/-- Fraction field of a `float64`. -/
def Float64.mant (f : Float64) : Nat := f.bits % 2 ^ 52

/-- Sign bit of a `float64`. -/
def Float64.neg (f : Float64) : Bool := (f.bits / 2 ^ 63) % 2 = 1

/-- A `float64` that is neither NaN nor an infinity. -/
def Float64.isFinite (f : Float64) : Bool := f.exp != 2 ^ 11 - 1

/-! ## The tree-file record layout (`converter`) -/

/-- The struct `converter`. -/
structure converter where
  dim : Int
  thread : Int
  order : ByteOrder
  deriving Repr

/-- The method `converter.nodeSize`: `int64(4 + 4*2 + 8*c.dim)`, evaluated in
64-bit arithmetic. -/
def converter.nodeSize (c : converter) : Int :=
  wrap64 (4 + -- n_descendants
    4 * 2 + -- children[2]
    8 * c.dim) -- v[1]

/-- The method `converter.offset`: `c.nodeSize() * int64(index)`. -/
def converter.offset (c : converter) (index : Int) : Int :=
  wrap64 (c.nodeSize * index)

/-- A `bytes.Reader`: the underlying bytes and the current reading index. -/
structure BytesReader where
  s : List UInt8
  i : Nat
  deriving Repr

/-- The constructor `bytes.NewReader`. -/
def NewReader (b : List UInt8) : BytesReader := ⟨b, 0⟩

/-- The call `io.ReadFull` of `n` bytes on a `bytes.Reader`: the bytes when `n`
of them are left, otherwise a failure after the reader has been drained. -/
def BytesReader.readFull (r : BytesReader) (n : Nat) : Option (List UInt8) × BytesReader :=
  if n ≤ (r.s.drop r.i).length then
    (some ((r.s.drop r.i).take n), { r with i := r.i + n })
  else
    (none, { r with i := max r.i r.s.length })

/-- The call `buf.Seek(off, io.SeekCurrent)` for a non-negative `off`. -/
def BytesReader.seekCurrent (r : BytesReader) (off : Nat) : BytesReader :=
  { r with i := r.i + off }

/-- The call `binary.Read(buf, order, &nDescendants)` into an `int32` that
holds `0`; the error is dropped by the caller, a failed read leaves `0`. -/
def readInt32 (order : ByteOrder) (r : BytesReader) : Int × BytesReader :=
  match r.readFull 4 with
  | (some bs, r1) => (toInt32 (order.uint bs), r1)
  | (none, r1) => (0, r1)

/-- Cut a byte string into consecutive 8-byte groups decoded as `float64`s. -/
def decodeFloat64s (order : ByteOrder) : Nat → List UInt8 → List Float64
  | 0, _ => []
  | n + 1, bs => ⟨order.uint (bs.take 8)⟩ :: decodeFloat64s order n (bs.drop 8)

/-- The call `binary.Read(buf, order, &vec)` into a slice `vec` of `float64`s;
the error is dropped by the caller, a failed read leaves `vec` as it was. -/
def readFloat64s (order : ByteOrder) (r : BytesReader) (vec : List Float64) :
    List Float64 × BytesReader :=
  match r.readFull (8 * vec.length) with
  | (some bs, r1) => (decodeFloat64s order vec.length bs, r1)
  | (none, r1) => (vec, r1)

/-! ## Errors, outcomes and the journal -/

/-- Go error values, told apart by where they arise. -/
inductive Error
  /-- An error value handed back by a collaborator (file system, index, journal). -/
  | collaborator (code : Nat)
  /-- A `csv.ParseError` for a line the CSV lexer rejects, with the position of
  the line among the listed lines (its line in a file without blank lines). -/
  | csvParse (line : Nat)
  /-- A `csv.ParseError` wrapping `csv.ErrFieldCount`, with the position of the
  record among the listed lines (its line in a file without blank lines). -/
  | csvFieldCount (line : Nat)
  /-- A `strconv.NumError` of `Atoi` wrapping `strconv.ErrSyntax`. -/
  | atoiSyntax (s : List Char)
  /-- A `strconv.NumError` of `Atoi` wrapping `strconv.ErrRange`. -/
  | atoiRange (s : List Char)
  /-- A `strconv.NumError` of `ParseFloat`. -/
  | parseFloat (s : List Char)
  /-- The error `fmt.Errorf("Index is not found in mapping file.\n")`. -/
  | mappingNotFound
  deriving DecidableEq, Repr

/-- How a call ends: `nil`, a returned error, or a run-time panic. -/
inductive Outcome
  | ok
  | error (e : Error)
  | panic
  deriving DecidableEq, Repr

/-- Modelled from the spec: the operation kinds of a journal entry.  The
constant `UPDATE` that `Convert` passes to `UpdateBinLog` is declared outside
the given sources; it is the kind the spec calls `UPSERT`. -/
inductive Op
  | UPDATE
  | DELETE
  deriving DecidableEq, Repr

/-- What an importer did to the index, in order: a successful
`index.UpdateBinLog(key, op, payload)` or a call of `index.Apply()`. -/
inductive Event
  | UpdateBinLog (key : Int) (op : Op) (payload : List Char)
  | Apply
  deriving DecidableEq, Repr

/-- The result of running an importer: the events and how the call ended. -/
structure Run where
  events : List Event
  outcome : Outcome
  deriving DecidableEq, Repr

/-- The collaborators of the importers: for each call the error it returns, if
any.  `UpdateBinLog` and `Apply` may depend on what was done to the index
before. -/
structure Env where
  OpenFrom : Option Error
  OpenMap : Option Error
  CreateGraphAndTree : Option Error
  Save : Option Error
  NewNGTIndex : Option Error
  Pread : Int → Option Error
  UpdateBinLog : List Event → Int → List Char → Option Error
  Apply : List Event → Option Error

/-- The `return index.Apply()` that ends both `Convert` methods. -/
def returnApply (env : Env) (events : List Event) : Run :=
  match env.Apply events with
  | some e => ⟨events ++ [Event.Apply], Outcome.error e⟩
  | none => ⟨events ++ [Event.Apply], Outcome.ok⟩

/-! ## `strconv` and `f2b` -/

/-- The floating-point routines of `strconv` that are taken as given. -/
structure Strconv where
  /-- The call `strconv.ParseFloat(s, 64)`: the value, or `none` for an error. -/
  ParseFloat : List Char → Option Float64
  /-- The text `strconv.FormatFloat(f, 'f', -1, 64)` produces for a finite `f`. -/
  formatFinite : Float64 → List Char

/-- The call `strconv.FormatFloat(f, 'f', -1, 64)`: an all-ones exponent is
answered with `NaN`, `-Inf` or `+Inf` before any digit is generated. -/
def Strconv.FormatFloat (lib : Strconv) (f : Float64) : List Char :=
  if f.exp = 2 ^ 11 - 1 then
    if f.mant ≠ 0 then "NaN".toList
    else if f.neg then "-Inf".toList
    else "+Inf".toList
  else lib.formatFinite f

/-- The call `strings.Join(ss, sep)`. -/
def Join (ss : List (List Char)) (sep : List Char) : List Char := sep.intercalate ss

/-- The call `fmt.Sprintf(template, arg)` for a template whose only verb is
one `%s` and a string argument. -/
def Sprintf : List Char → List Char → List Char
  | '%' :: 's' :: rest, arg => arg ++ rest
  | c :: rest, arg => c :: Sprintf rest arg
  | [], _ => []

/-- The loop of `f2b`: `ss[i] = s` for every `i, f := range fs`, from index `i` on. -/
def f2bLoop (lib : Strconv) : List Float64 → Nat → List (List Char) → List (List Char)
  | [], _, ss => ss
  | f :: fs, i, ss => f2bLoop lib fs (i + 1) (ss.set i (lib.FormatFloat f))

/-- The function `f2b`. -/
def f2b (lib : Strconv) (fs : List Float64) : List Char :=
  let template := "\x7b\"features\":[%s]\x7d".toList
  let ss := f2bLoop lib fs 0 (List.replicate fs.length [])
  Sprintf template (Join ss ",".toList)

/-- Value of an ASCII decimal digit. -/
def digitValue (c : Char) : Option Nat :=
  if 48 ≤ c.toNat ∧ c.toNat ≤ 57 then some (c.toNat - 48) else none

/-- How the digit loop of `strconv.ParseUint(s, 10, 64)` ends. -/
inductive UintResult
  | value (n : Nat)
  | badSyntax
  | outOfRange
  deriving DecidableEq, Repr

/-- The digit loop of `strconv.ParseUint(s, 10, 64)`, continuing from `n`: a
character that is no decimal digit is a syntax error, a value that leaves 64
bits a range error, whichever comes first. -/
def parseUintLoop : List Char → Nat → UintResult
  | [], n => UintResult.value n
  | c :: cs, n =>
    match digitValue c with
    | none => UintResult.badSyntax
    | some d =>
      if (2 ^ 64 - 1) / 10 + 1 ≤ n then UintResult.outOfRange -- n*base overflows
      else if 2 ^ 64 ≤ n * 10 + d then UintResult.outOfRange -- n+d overflows
      else parseUintLoop cs (n * 10 + d)

/-- The call `strconv.Atoi(s)`: an optional sign, then at least one decimal
digit and nothing else, with a value that fits a signed 64-bit integer. -/
def Atoi (s : List Char) : Except Error Int :=
  let body := match s with
    | '-' :: cs => cs
    | '+' :: cs => cs
    | _ => s
  if body = [] then Except.error (Error.atoiSyntax s)
  else
    match parseUintLoop body 0 with
    | UintResult.badSyntax => Except.error (Error.atoiSyntax s)
    | UintResult.outOfRange => Except.error (Error.atoiRange s)
    | UintResult.value un =>
      if s.head? = some '-' then
        if (un : Int) ≤ int64Bound then Except.ok (-(un : Int))
        else Except.error (Error.atoiRange s)
      else
        if (un : Int) < int64Bound then Except.ok (un : Int)
        else Except.error (Error.atoiRange s)

/-! ## The CSV reader -/

/-- A line of a CSV file as `csv.Reader` sees it: one its lexer rejects, or a
record, which has at least one field.  Blank lines, which the reader skips,
are not listed. -/
inductive Line
  | malformed
  | fields (first : List Char) (rest : List (List Char))
  deriving DecidableEq, Repr

/-- What `reader.Read()` returns on a line: an error or a record. -/
inductive ReadResult
  | err (e : Error)
  | record (r : List (List Char))
  deriving DecidableEq, Repr

/-- One `reader.Read()` on line `l`, with `n` listed lines behind it and the
reader's `FieldsPerRecord` at `fpr`: the result and the new `FieldsPerRecord`.
A reader made by `csv.NewReader` starts with `FieldsPerRecord = 0`, takes the
field count of its first record and demands it of every later one.  An error
is numbered by the position of the line among the listed lines; the file line
that `csv.ParseError` reports is larger when blank lines come before it. -/
def readLine (fpr : Nat) (n : Nat) (l : Line) : ReadResult × Nat :=
  match l with
  | Line.malformed => (ReadResult.err (Error.csvParse (n + 1)), fpr)
  | Line.fields first rest =>
    if 0 < fpr then
      if (first :: rest).length ≠ fpr then (ReadResult.err (Error.csvFieldCount (n + 1)), fpr)
      else (ReadResult.record (first :: rest), fpr)
    else (ReadResult.record (first :: rest), (first :: rest).length)

/-! ## `converter.initializeMaps` -/

/-- A Go `map[int]int` as its assignments, the latest first. -/
abbrev Maps := List (Int × Int)

/-- The assignment `maps[index] = key`. -/
def Maps.assign (maps : Maps) (index key : Int) : Maps := (index, key) :: maps

/-- The lookup `k, ok := maps[i]`. -/
def Maps.get (maps : Maps) (i : Int) : Option Int := List.lookup i maps

/-- What `initializeMaps` hands back: a table with a `nil` error, an error,
or a run-time panic. -/
inductive MapsResult
  | ok (maps : Maps)
  | error (e : Error)
  | panic
  deriving DecidableEq, Repr

/-- The read loop of `initializeMaps` over the lines that are left. -/
def initializeMapsLoop : List Line → Nat → Nat → Maps → MapsResult
  | [], _, _, maps => MapsResult.ok maps -- err == io.EOF
  | l :: ls, fpr, n, maps =>
    match readLine fpr n l with
    | (ReadResult.err e, _) => MapsResult.error e
    | (ReadResult.record record, fpr1) =>
      match record[0]? with
      | none => MapsResult.panic
      | some r0 =>
        match Atoi r0 with
        | Except.error e => MapsResult.error e
        | Except.ok key =>
          match record[1]? with
          | none => MapsResult.panic
          | some r1 =>
            match Atoi r1 with
            | Except.error e => MapsResult.error e
            | Except.ok index => initializeMapsLoop ls fpr1 (n + 1) (maps.assign index key)

/-- The method `converter.initializeMaps` on a mapping file with the given lines. -/
def converter.initializeMaps (env : Env) (mapFile : List Line) : MapsResult :=
  match env.OpenMap with
  | some e => MapsResult.error e
  | none => initializeMapsLoop mapFile 0 0 []

/-! ## `converter.Convert` -/

/-- The call `make([]T, n)` for an element size of `size` bytes: a panic for a
negative length or one whose byte count overflows the address space.  It is
`make` for byte counts up to `maxAlloc`; above `maxAlloc` the run time refuses
the allocation as well, which is not part of this definition, and running out
of memory is not modelled. -/
def makeLen (size : Nat) (n : Int) : Option Nat :=
  if 0 ≤ n ∧ (size : Int) * n < 2 ^ 64 then some n.toNat else none

/-- The constant `maxAlloc` of the Go run time on linux/amd64: the largest byte
count `make` accepts. -/
def maxAlloc : Int := 2 ^ 48

/-- The call `syscall.Pread(fd, b, off)` into a zeroed `b` of `n` bytes: the
bytes of the file from `off` on, as many as there are, up to `n`. -/
def Pread (ann : List UInt8) (n : Nat) (off : Int) : List UInt8 :=
  ((ann.drop off.toNat).take n) ++ List.replicate (n - ((ann.drop off.toNat).take n).length) 0

/-- The loop `for i := 0; i < count; i++` of `converter.Convert`, with
`remaining` iterations to go from index `i` on, followed by the
`return index.Apply()` the loop falls through or breaks to. -/
def convertLoop (c : converter) (lib : Strconv) (env : Env) (ann : List UInt8)
    (mapPath : List Char) (maps : Maps) : Nat → Int → List Event → Run
  | 0, _, events => returnApply env events
  | remaining + 1, i, events =>
    match makeLen 1 c.nodeSize with
    | none => ⟨events, Outcome.panic⟩
    | some n =>
      match env.Pread i with
      | some e => ⟨events, Outcome.error e⟩
      | none =>
        let b := Pread ann n (c.offset i)
        let buf := NewReader b
        let (nDescendants, buf) := readInt32 c.order buf
        if nDescendants ≠ 1 then returnApply env events -- break
        else
          let buf := buf.seekCurrent (4 * 2) -- skip children
          match makeLen 8 c.dim with
          | none => ⟨events, Outcome.panic⟩
          | some len =>
            let vec := (readFloat64s c.order buf (List.replicate len Float64.zero)).1
            let key : Option Int :=
              if mapPath ≠ [] then maps.get i else some i
            match key with
            | none => ⟨events, Outcome.error Error.mappingNotFound⟩
            | some key =>
              match env.UpdateBinLog events key (f2b lib vec) with
              | some e => ⟨events, Outcome.error e⟩
              | none =>
                convertLoop c lib env ann mapPath maps remaining (i + 1)
                  (events ++ [Event.UpdateBinLog key Op.UPDATE (f2b lib vec)])

/-- The number of records `count := int(stat.Size() / c.nodeSize())`. -/
def converter.count (c : converter) (ann : List UInt8) : Int :=
  Int.tdiv (ann.length : Int) c.nodeSize

/-- The method `converter.Convert` on a tree file with bytes `ann`, the
mapping path `mapPath` and, behind that path, a mapping file with lines
`mapFile`. -/
def converter.Convert (c : converter) (lib : Strconv) (env : Env) (ann : List UInt8)
    (mapPath : List Char) (mapFile : List Line) : Run :=
  match env.OpenFrom with
  | some e => ⟨[], Outcome.error e⟩
  | none =>
    let initialized : MapsResult :=
      if mapPath ≠ [] then converter.initializeMaps env mapFile else MapsResult.ok []
    match initialized with
    | MapsResult.error e => ⟨[], Outcome.error e⟩
    | MapsResult.panic => ⟨[], Outcome.panic⟩
    | MapsResult.ok maps =>
      match env.CreateGraphAndTree with
      | some e => ⟨[], Outcome.error e⟩
      | none =>
        match env.Save with
        | some e => ⟨[], Outcome.error e⟩
        | none =>
          match env.NewNGTIndex with
          | some e => ⟨[], Outcome.error e⟩
          | none =>
            if c.nodeSize = 0 then ⟨[], Outcome.panic⟩ -- integer divide by zero
            else convertLoop c lib env ann mapPath maps (c.count ann).toNat 0 []

/-! ## `csvConverter.Convert` -/

/-- The struct `csvConverter`. -/
structure csvConverter where
  dim : Int
  thread : Int
  deriving Repr

/-- How the loop over the components of a row ends: with the filled vector,
with a returned error, or with a run-time panic. -/
inductive FillResult
  | ok (vec : List Float64)
  | error (e : Error)
  | panic
  deriving DecidableEq, Repr

/-- The loop `for i, f := range record[1:]` of `csvConverter.Convert`, from
index `i` on: parse `f`, then store it with `vec[i] = feature`. -/
def fillVec (lib : Strconv) : List (List Char) → Nat → List Float64 → FillResult
  | [], _, vec => FillResult.ok vec
  | f :: fs, i, vec =>
    match lib.ParseFloat f with
    | none => FillResult.error (Error.parseFloat f)
    | some feature =>
      if i < vec.length then fillVec lib fs (i + 1) (vec.set i feature)
      else FillResult.panic -- index out of range

/-- The read loop of `csvConverter.Convert` over the lines that are left,
followed by the `return index.Apply()` it breaks to at the end of the file. -/
def csvConvertLoop (c : csvConverter) (lib : Strconv) (env : Env) :
    List Line → Nat → Nat → List Event → Run
  | [], _, _, events => returnApply env events -- err == io.EOF
  | l :: ls, fpr, n, events =>
    match readLine fpr n l with
    | (ReadResult.err e, _) => ⟨events, Outcome.error e⟩
    | (ReadResult.record record, fpr1) =>
      match record[0]? with
      | none => ⟨events, Outcome.panic⟩
      | some r0 =>
        match Atoi r0 with
        | Except.error e => ⟨events, Outcome.error e⟩
        | Except.ok key =>
          match makeLen 8 c.dim with
          | none => ⟨events, Outcome.panic⟩
          | some len =>
            match fillVec lib (record.drop 1) 0 (List.replicate len Float64.zero) with
            | FillResult.error e => ⟨events, Outcome.error e⟩
            | FillResult.panic => ⟨events, Outcome.panic⟩
            | FillResult.ok vec =>
              match env.UpdateBinLog events key (f2b lib vec) with
              | some e => ⟨events, Outcome.error e⟩
              | none =>
                csvConvertLoop c lib env ls fpr1 (n + 1)
                  (events ++ [Event.UpdateBinLog key Op.UPDATE (f2b lib vec)])

/-- The method `csvConverter.Convert` on a CSV file with the given lines. -/
def csvConverter.Convert (c : csvConverter) (lib : Strconv) (env : Env)
    (file : List Line) : Run :=
  match env.OpenFrom with
  | some e => ⟨[], Outcome.error e⟩
  | none =>
    match env.CreateGraphAndTree with
    | some e => ⟨[], Outcome.error e⟩
    | none =>
      match env.Save with
      | some e => ⟨[], Outcome.error e⟩
      | none =>
        match env.NewNGTIndex with
        | some e => ⟨[], Outcome.error e⟩
        | none => csvConvertLoop c lib env file 0 0 []

/-! ## Decoding a payload as a `Feature` -/

/-- The states of the scanner for a JSON number
`-? (0 | [1-9][0-9]*) (. [0-9]+)? ([eE] [+-]? [0-9]+)?`. -/
inductive NumState
  | start
  | minus
  | zero
  | int
  | dot
  | frac
  | e
  | esign
  | exp
  deriving DecidableEq, Repr

/-- One step of the JSON number scanner; `none` rejects the character. -/
def NumState.step (st : NumState) (ch : Char) : Option NumState :=
  let digit : Bool := 48 ≤ ch.toNat ∧ ch.toNat ≤ 57
  match st with
  | NumState.start =>
    if ch = '-' then some NumState.minus
    else if ch = '0' then some NumState.zero
    else if digit then some NumState.int else none
  | NumState.minus =>
    if ch = '0' then some NumState.zero
    else if digit then some NumState.int else none
  | NumState.zero =>
    if ch = '.' then some NumState.dot
    else if ch = 'e' ∨ ch = 'E' then some NumState.e else none
  | NumState.int =>
    if digit then some NumState.int
    else if ch = '.' then some NumState.dot
    else if ch = 'e' ∨ ch = 'E' then some NumState.e else none
  | NumState.dot => if digit then some NumState.frac else none
  | NumState.frac =>
    if digit then some NumState.frac
    else if ch = 'e' ∨ ch = 'E' then some NumState.e else none
  | NumState.e =>
    if ch = '+' ∨ ch = '-' then some NumState.esign
    else if digit then some NumState.exp else none
  | NumState.esign => if digit then some NumState.exp else none
  | NumState.exp => if digit then some NumState.exp else none

/-- The states in which a JSON number may end. -/
def NumState.accepting : NumState → Bool
  | NumState.zero => true
  | NumState.int => true
  | NumState.frac => true
  | NumState.exp => true
  | _ => false

/-- Run the JSON number scanner over a token from state `st`. -/
def scanNumber : NumState → List Char → Bool
  | st, [] => st.accepting
  | st, ch :: rest =>
    match st.step ch with
    | some st1 => scanNumber st1 rest
    | none => false

/-- A token that is a JSON number literal. -/
def isJSONNumber (tok : List Char) : Bool := scanNumber NumState.start tok

/-- Decoding one array element into a `float64`: the token has to be a JSON
number literal, whose value is then taken with `strconv.ParseFloat`. -/
def decodeNumber (lib : Strconv) (tok : List Char) : Option Float64 :=
  if isJSONNumber tok then lib.ParseFloat tok else none

/-- The struct `Feature` with its tag `json:"features"`. -/
structure Feature where
  W : List Float64
  deriving DecidableEq, Repr

/-- Decoding a payload into a `Feature`, as `json.Unmarshal` does for the
compact single-field documents `f2b` writes: the text
`\x7b"features":[` ... `]\x7d` around number literals separated by commas.
White space, other fields and other value kinds are not modelled; `none` is a
decoding error. -/
def decodeFeature (lib : Strconv) (payload : List Char) : Option Feature :=
  let head := "\x7b\"features\":[".toList
  let tail := "]\x7d".toList
  if head.isPrefixOf payload ∧ tail.isSuffixOf (payload.drop head.length) then
    let body := (payload.drop head.length).take (payload.length - head.length - tail.length)
    if body = [] then some ⟨[]⟩
    else ((body.splitOn ',').mapM (decodeNumber lib)).map Feature.mk
  else none

/-! ## The database scan of `cmd/gannoy-ngt/main.go` -/

/-- An `os.FileInfo` as the scan uses it. -/
structure FileInfo where
  Name : List Char
  IsDir : Bool
  deriving DecidableEq, Repr

/-- The collaborators of the scan: `ioutil.ReadDir(key)` (`none` for an error)
and whether `gannoy.NewNGTIndex(key)` returns an index. -/
structure ScanEnv where
  ReadDir : List Char → Option (List FileInfo)
  NewNGTIndex : List Char → Bool

/-- What the scan has done: the keys `gannoy.NewNGTIndex` was called with and
the keys registered in the map `databases`, both in order. -/
structure Scan where
  opened : List (List Char)
  databases : List (List Char)
  deriving DecidableEq, Repr

/-- The function `contain`. -/
def contain : List (List Char) → List Char → Bool
  | [], _ => false
  | f :: files, file => if file = f then true else contain files file

/-- The slice `dbFiles`. -/
def dbFiles : List (List Char) := ["grp".toList, "obj".toList, "prf".toList, "tre".toList]

/-- The inner loop `for _, file := range files` of the scan.  Its body is the
single statement `if !contain(dbFiles, file.Name()) \x7b continue \x7d`, whose
`continue` moves on to the next file; the loop has no other effect. -/
def checkFiles : List FileInfo → Unit
  | [] => ()
  | file :: files =>
    if !contain dbFiles file.Name then checkFiles files -- continue
    else checkFiles files

/-- The loop `for _, dir := range dirs` that loads the databases. -/
def loadDatabases (env : ScanEnv) : List FileInfo → Scan → Scan
  | [], st => st
  | dir :: dirs, st =>
    if !dir.IsDir then loadDatabases env dirs st
    else
      let key := dir.Name
      match env.ReadDir key with
      | none => loadDatabases env dirs st
      | some files =>
        if files.length ≠ 4 then loadDatabases env dirs st
        else
          let _ := checkFiles files
          if env.NewNGTIndex key then
            loadDatabases env dirs ⟨st.opened ++ [key], st.databases ++ [key]⟩
          else loadDatabases env dirs ⟨st.opened ++ [key], st.databases⟩

/-! ## Sample collaborators, used to evaluate the embedding -/

/-- An environment in which every collaborator call succeeds. -/
def Env.allOk : Env where
  OpenFrom := none
  OpenMap := none
  CreateGraphAndTree := none
  Save := none
  NewNGTIndex := none
  Pread := fun _ => none
  UpdateBinLog := fun _ _ _ => none
  Apply := fun _ => none

/-- A fragment of `strconv` on the literals `0`, `0.5`, `1`, `1.5`, `2` and
`NaN`, where it agrees with the library; every other text is refused, so it is
to be used on these literals and on texts that are no numbers only. -/
def sampleStrconv : Strconv where
  ParseFloat := fun s =>
    if s = "0".toList then some ⟨0⟩
    else if s = "0.5".toList then some ⟨0x3FE0000000000000⟩
    else if s = "1".toList then some ⟨0x3FF0000000000000⟩
    else if s = "1.5".toList then some ⟨0x3FF8000000000000⟩
    else if s = "2".toList then some ⟨0x4000000000000000⟩
    else if s = "NaN".toList then some ⟨0x7FF8000000000001⟩
    else none
  formatFinite := fun f =>
    if f.bits = 0 then "0".toList
    else if f.bits = 0x3FE0000000000000 then "0.5".toList
    else if f.bits = 0x3FF0000000000000 then "1".toList
    else if f.bits = 0x3FF8000000000000 then "1.5".toList
    else if f.bits = 0x4000000000000000 then "2".toList
    else []

/-- The float64 NaN that `math.NaN()` returns. -/
def Float64.NaN : Float64 := ⟨0x7FF8000000000001⟩

/-- The float64 `1.5`. -/
def Float64.onePointFive : Float64 := ⟨0x3FF8000000000000⟩

/-! ## The tree file as the spec describes it -/

/-- The size in bytes of a record of a tree file of dimension `c.dim`: a 4-byte
descendant count, two 4-byte child pointers and `dim` 8-byte components. -/
def recordSize (c : converter) : Nat := 4 + 2 * 4 + 8 * c.dim.toNat

/-- The number of whole records of a tree file. -/
def recordCount (c : converter) (ann : List UInt8) : Nat := ann.length / recordSize c

/-- The bytes of the record with positional index `k`. -/
def recordBytes (c : converter) (ann : List UInt8) (k : Nat) : List UInt8 :=
  (ann.drop (k * recordSize c)).take (recordSize c)

/-- The descendant-count field of record `k`. -/
def descendants (c : converter) (ann : List UInt8) (k : Nat) : Int :=
  toInt32 (c.order.uint ((recordBytes c ann k).take 4))

/-- A leaf record: its descendant-count field equals one. -/
def isLeaf (c : converter) (ann : List UInt8) (k : Nat) : Bool :=
  decide (descendants c ann k = 1)

/-- The vector of record `k`: the `dim` components that follow the header and
the two child pointers. -/
def leafVector (c : converter) (ann : List UInt8) (k : Nat) : List Float64 :=
  decodeFloat64s c.order c.dim.toNat (((recordBytes c ann k).drop 12).take (8 * c.dim.toNat))

/-- The journal entry of the leaf record `k` under the external key `key`. -/
def leafEntry (c : converter) (lib : Strconv) (ann : List UInt8) (key : Int) (k : Nat) : Event :=
  Event.UpdateBinLog key Op.UPDATE (f2b lib (leafVector c ann k))

/-- The rows of a mapping file all of whose lines have two integer fields:
for each line the values of its first and of its second column; `none` for
any other file. -/
def integerPairs : List Line → Option (List (Int × Int))
  | [] => some []
  | Line.fields a [b] :: ls =>
    match Atoi a, Atoi b, integerPairs ls with
    | Except.ok x, Except.ok y, some ps => some ((x, y) :: ps)
    | _, _, _ => none
  | _ :: _ => none

/-! ## The CSV file as the spec describes it -/

/-- The values of a list of fields that are all valid floating-point numbers;
`none` when one of them is not. -/
def parseFloats (lib : Strconv) : List (List Char) → Option (List Float64)
  | [] => some []
  | f :: fs =>
    match lib.ParseFloat f, parseFloats lib fs with
    | some v, some vs => some (v :: vs)
    | _, _ => none

/-- The rows of a CSV file all of whose lines are an integer key followed by
exactly `nf` numeric components: for each line the key and the components;
`none` for any other file. -/
def numericRows (lib : Strconv) (nf : Nat) : List Line → Option (List (Int × List Float64))
  | [] => some []
  | Line.malformed :: _ => none
  | Line.fields kf comps :: ls =>
    match Atoi kf, parseFloats lib comps, numericRows lib nf ls with
    | Except.ok key, some vals, some rows =>
      if comps.length = nf then some ((key, vals) :: rows) else none
    | _, _, _ => none

/-- A vector followed by zeros up to `dim` components. -/
def padTo (dim : Nat) (vals : List Float64) : List Float64 :=
  vals ++ List.replicate (dim - vals.length) Float64.zero

/-- The journal entry of a CSV row: its key and the encoding of its components,
padded to `dim` components. -/
def csvEntry (lib : Strconv) (dim : Nat) (row : Int × List Float64) : Event :=
  Event.UpdateBinLog row.1 Op.UPDATE (f2b lib (padTo dim row.2))

/-- A leaf record of dimension 1, little-endian: descendant count 1, two zero
child pointers, the component `1.5`. -/
def treeLeaf : List UInt8 :=
  [1, 0, 0, 0, 0, 0, 0, 0, 0, 0, 0, 0, 0, 0, 0, 0, 0, 0, 0xF8, 0x3F]

/-- A non-leaf record of dimension 1, little-endian: descendant count 2. -/
def treeNode : List UInt8 :=
  [2, 0, 0, 0, 0, 0, 0, 0, 1, 0, 0, 0, 0, 0, 0, 0, 0, 0, 0, 0]

/-! ## Properties -/

/-! ### Arithmetic of the record layout -/

/-- A result within the signed 64-bit range is not changed by the wrap-around.
-/
theorem wrap64_of_fits (x : Int) (hlo : -2 ^ 63 ≤ x) (hhi : x < 2 ^ 63) : wrap64 x = x := by
  unfold wrap64
  norm_num at hlo hhi ⊢
  omega

/-- Within the signed 64-bit range `nodeSize()` is the size of a record. -/
theorem nodeSize_of_fits (c : converter) (hdim : 0 ≤ c.dim)
    (hsize : 4 + 2 * 4 + 8 * c.dim < int64Bound) : c.nodeSize = 4 + 2 * 4 + 8 * c.dim := by
  unfold converter.nodeSize
  unfold int64Bound at hsize
  norm_num at hsize
  rw [wrap64_of_fits] <;> norm_num <;> omega

/-- Within the signed 64-bit range `offset(i)` is the product `i * nodeSize()`.
-/
theorem offset_of_fits (c : converter) (i : Int) (hlo : 0 ≤ i * c.nodeSize)
    (hhi : i * c.nodeSize < int64Bound) : c.offset i = i * c.nodeSize := by
  unfold converter.offset
  unfold int64Bound at hhi
  rw [mul_comm, wrap64_of_fits]
  · have : (-2 : Int) ^ 63 ≤ 0 := by norm_num
    norm_num
    omega
  · exact hhi

/-- Reading the descendant count of a record of at least four bytes: the value
of its first four bytes, with the reader left at byte 4. -/
theorem readInt32_index (order : ByteOrder) (b : List UInt8) (hb : 4 ≤ b.length) :
    (readInt32 order (NewReader b)).2.i = 4 ∧ (readInt32 order (NewReader b)).2.s = b ∧
      (readInt32 order (NewReader b)).1 = toInt32 (order.uint (b.take 4)) := by
  simp [readInt32, NewReader, BytesReader.readFull, hb]

/-- Reading `len` components with the reader at byte `k`: the next `8*len` bytes
are decoded and the reader is left behind them. -/
theorem readFloat64s_at (order : ByteOrder) (b : List UInt8) (k len : Nat)
    (hb : k + 8 * len ≤ b.length) :
    (readFloat64s order ⟨b, k⟩ (List.replicate len Float64.zero)).1
        = decodeFloat64s order len ((b.drop k).take (8 * len)) ∧
      (readFloat64s order ⟨b, k⟩ (List.replicate len Float64.zero)).2.i = k + 8 * len := by
  have h : 8 * len ≤ b.length - k := by omega
  simp [readFloat64s, BytesReader.readFull, h]

/-- C4 (as amended): for a dimension `dim ≥ 0` whose record size
`4 + 2*4 + 8*dim` fits a signed 64-bit integer, `nodeSize()` is that size; for
a record index `i ≥ 0` such that the end of record `i` is below `2^63`,
`offset(i) = i * nodeSize()` and `offset(i+1) = offset(i) + nodeSize()`; and in
a record of `nodeSize()` bytes `Convert` starts reading the vector at byte 12,
after the descendant count and the two skipped child pointers, and its
`8*dim` bytes end where the record ends. -/
theorem C4_record_layout (c : converter) (i : Int) (b : List UInt8)
    (hdim : 0 ≤ c.dim) (hsize : 4 + 2 * 4 + 8 * c.dim < int64Bound)
    (hi : 0 ≤ i) (hnext : (i + 1) * (4 + 2 * 4 + 8 * c.dim) < int64Bound)
    (hb : (b.length : Int) = c.nodeSize) :
    c.nodeSize = 4 + 2 * 4 + 8 * c.dim ∧
    c.offset i = i * c.nodeSize ∧
    c.offset (i + 1) = c.offset i + c.nodeSize ∧
    ((readInt32 c.order (NewReader b)).2.seekCurrent (4 * 2)).i = 12 ∧
    (readFloat64s c.order ((readInt32 c.order (NewReader b)).2.seekCurrent (4 * 2))
        (List.replicate c.dim.toNat Float64.zero)).1
      = decodeFloat64s c.order c.dim.toNat ((b.drop 12).take (8 * c.dim.toNat)) ∧
    ((readFloat64s c.order ((readInt32 c.order (NewReader b)).2.seekCurrent (4 * 2))
        (List.replicate c.dim.toNat Float64.zero)).2.i : Int) = c.nodeSize := by
  have hns := nodeSize_of_fits c hdim hsize
  have hpos : 0 < c.nodeSize := by rw [hns]; omega
  have hmul : 0 ≤ i * c.nodeSize := mul_nonneg hi hpos.le
  have hlt : i * c.nodeSize < (i + 1) * c.nodeSize := by nlinarith
  have hnext1 : (i + 1) * c.nodeSize < int64Bound := by rw [hns]; exact hnext
  have hoff := offset_of_fits c i hmul (lt_trans hlt hnext1)
  have hoff1 := offset_of_fits c (i + 1) (mul_nonneg (by omega) hpos.le) hnext1
  have hlen : b.length = 12 + 8 * c.dim.toNat := by
    have : (b.length : Int) = 12 + 8 * c.dim := by rw [hb, hns]; ring
    omega
  obtain ⟨h1, h2, _⟩ := readInt32_index c.order b (by omega)
  have hrd : (readInt32 c.order (NewReader b)).2.seekCurrent (4 * 2) = ⟨b, 12⟩ := by
    cases hr : (readInt32 c.order (NewReader b)).2 with
    | mk s k =>
      rw [hr] at h1 h2
      simp only [BytesReader.seekCurrent]
      simp only at h1 h2
      subst h1 h2
      rfl
  obtain ⟨h3, h4⟩ := readFloat64s_at c.order b 12 c.dim.toNat (by omega)
  refine ⟨hns, hoff, ?_, ?_, ?_, ?_⟩
  · rw [hoff1, hoff]; ring
  · rw [hrd]
  · rw [hrd]; exact h3
  · rw [hrd, h4, hns]
    push_cast
    omega

/-- C4, witness: dimension 2 (records of 28 bytes), record index 3. -/
theorem C4_record_layout_witness :
    converter.nodeSize ⟨2, 1, ByteOrder.LittleEndian⟩ = 4 + 2 * 4 + 8 * 2 ∧
    converter.offset ⟨2, 1, ByteOrder.LittleEndian⟩ 3
      = 3 * converter.nodeSize ⟨2, 1, ByteOrder.LittleEndian⟩ ∧
    converter.offset ⟨2, 1, ByteOrder.LittleEndian⟩ 4
      = converter.offset ⟨2, 1, ByteOrder.LittleEndian⟩ 3
        + converter.nodeSize ⟨2, 1, ByteOrder.LittleEndian⟩ := by
  have h := C4_record_layout ⟨2, 1, ByteOrder.LittleEndian⟩ 3 (List.replicate 28 0)
    (by decide) (by decide) (by decide) (by decide) (by decide)
  exact ⟨h.1, h.2.1, h.2.2.1⟩

/-- C4, counterexample: at dimension `2^60` the product `8*dim` is `2^63`, which
wraps around, and `nodeSize()` is the negative number `12 - 2^63`, not
`4 + 2*4 + 8*dim`. -/
theorem C4_nodeSize_overflow :
    converter.nodeSize ⟨2 ^ 60, 1, ByteOrder.LittleEndian⟩ = 12 - 2 ^ 63 ∧
    converter.nodeSize ⟨2 ^ 60, 1, ByteOrder.LittleEndian⟩ ≠ 4 + 2 * 4 + 8 * 2 ^ 60 := by
  constructor <;> decide

/-! ### The payload codec -/

theorem step_comma (st : NumState) : st.step ',' = none := by
  cases st <;> decide

theorem scanNumber_no_comma (tok : List Char) :
    ∀ st : NumState, scanNumber st tok = true → ',' ∉ tok := by
  induction tok with
  | nil => intro _ _; simp
  | cons ch rest ih =>
    intro st h
    unfold scanNumber at h
    cases hs : st.step ch with
    | none => rw [hs] at h; simp at h
    | some st1 =>
      rw [hs] at h
      have hne : ch ≠ ',' := by
        intro hc
        rw [hc, step_comma] at hs
        cases hs
      simp only [List.mem_cons, not_or]
      exact ⟨fun hc => hne hc.symm, ih st1 h⟩

theorem isJSONNumber_ne_nil (tok : List Char) (h : isJSONNumber tok = true) : tok ≠ [] := by
  intro hn
  subst hn
  simp [isJSONNumber, scanNumber, NumState.accepting] at h

/-- The loop of `f2b` overwrites the slots from index `i` on with the texts of
the components, in order. -/
theorem f2bLoop_append (lib : Strconv) (fs : List Float64) :
    ∀ (i : Nat) (pre blanks post : List (List Char)), pre.length = i → blanks.length = fs.length →
      f2bLoop lib fs i (pre ++ blanks ++ post) = pre ++ fs.map lib.FormatFloat ++ post := by
  induction fs with
  | nil =>
    intro i pre blanks post _ hb
    have : blanks = [] := List.length_eq_zero.mp hb
    simp [f2bLoop, this]
  | cons f fs ih =>
    intro i pre blanks post hp hb
    cases blanks with
    | nil => simp at hb
    | cons b bl =>
      have hset : (pre ++ b :: bl ++ post).set i (lib.FormatFloat f)
          = (pre ++ [lib.FormatFloat f]) ++ bl ++ post := by
        subst hp
        simp [List.set_append]
      rw [f2bLoop, hset, ih (i + 1) (pre ++ [lib.FormatFloat f]) bl post (by simp [hp])
        (by simpa using hb)]
      simp

theorem f2bLoop_eq_map (lib : Strconv) (fs : List Float64) :
    f2bLoop lib fs 0 (List.replicate fs.length []) = fs.map lib.FormatFloat := by
  have h := f2bLoop_append lib fs 0 [] (List.replicate fs.length []) [] rfl (by simp)
  simpa using h

theorem Sprintf_template (arg : List Char) :
    Sprintf "\x7b\"features\":[%s]\x7d".toList arg
      = "\x7b\"features\":[".toList ++ arg ++ "]\x7d".toList := by
  rfl

/-- The payload of `f2b`: the opening text, the texts of the components joined
by commas, the closing text. -/
theorem f2b_eq (lib : Strconv) (fs : List Float64) :
    f2b lib fs = "\x7b\"features\":[".toList ++ Join (fs.map lib.FormatFloat) ",".toList
      ++ "]\x7d".toList := by
  unfold f2b
  simp only []
  rw [f2bLoop_eq_map, Sprintf_template]
/-- Decoding a payload of the shape `f2b` writes comes down to decoding the
tokens between its commas. -/
theorem decodeFeature_wrap (lib : Strconv) (X : List Char) :
    decodeFeature lib ("\x7b\"features\":[".toList ++ X ++ "]\x7d".toList)
      = if X = [] then some ⟨[]⟩
        else ((X.splitOn ',').mapM (decodeNumber lib)).map Feature.mk := by
  unfold decodeFeature
  have hpre : ("\x7b\"features\":[".toList).isPrefixOf
      ("\x7b\"features\":[".toList ++ X ++ "]\x7d".toList) = true := by
    rw [List.isPrefixOf_iff_prefix, List.append_assoc]
    exact List.prefix_append _ _
  have hdrop : ("\x7b\"features\":[".toList ++ X ++ "]\x7d".toList).drop
      ("\x7b\"features\":[".toList).length = X ++ "]\x7d".toList := by
    rw [List.append_assoc, List.drop_left]
  have hsuf : ("]\x7d".toList).isSuffixOf (X ++ "]\x7d".toList) = true := by
    rw [List.isSuffixOf_iff_suffix]
    exact List.suffix_append _ _
  have htake : (X ++ "]\x7d".toList).take
      (("\x7b\"features\":[".toList ++ X ++ "]\x7d".toList).length
        - ("\x7b\"features\":[".toList).length - ("]\x7d".toList).length) = X := by
    have : ("\x7b\"features\":[".toList ++ X ++ "]\x7d".toList).length
        - ("\x7b\"features\":[".toList).length - ("]\x7d".toList).length = X.length := by
      simp only [List.length_append]
      omega
    rw [this, List.take_left]
  simp only [hdrop, hpre, hsuf, htake, and_self, if_true]

theorem mapM_decodeNumber (lib : Strconv) (fs : List Float64)
    (h : ∀ f ∈ fs, isJSONNumber (lib.FormatFloat f) = true ∧
      lib.ParseFloat (lib.FormatFloat f) = some f) :
    (fs.map lib.FormatFloat).mapM (decodeNumber lib) = some fs := by
  induction fs with
  | nil => rfl
  | cons f fs ih =>
    have hf := h f (List.mem_cons_self _ _)
    have ih1 := ih (fun g hg => h g (List.mem_cons_of_mem _ hg))
    simp only [List.map_cons, List.mapM_cons, ih1, decodeNumber, hf.1, hf.2, if_true]
    rfl
theorem Join_ne_nil (t : List Char) (ts : List (List Char)) (sep : List Char) (ht : t ≠ []) :
    Join (t :: ts) sep ≠ [] := by
  cases ts with
  | nil => simpa [Join, List.intercalate, List.intersperse] using ht
  | cons u us => simp [Join, List.intercalate, List.intersperse, ht]

theorem FormatFloat_nonfinite (lib : Strconv) (f : Float64) (h : f.isFinite = false) :
    isJSONNumber (lib.FormatFloat f) = false := by
  have he : f.exp = 2 ^ 11 - 1 := by
    simpa [Float64.isFinite] using h
  unfold Strconv.FormatFloat
  rw [if_pos he]
  split_ifs <;> decide

/-- C7 (as amended): for every vector `fs`, `f2b(fs)` is the single-field record
`\x7b"features":[c0,c1,...]\x7d` whose `len(fs)` components are the `FormatFloat`
texts of the components of `fs` in their order, joined by commas (and
`\x7b"features":[]\x7d` for the empty vector); decoding the payload as a
`Feature` returns `fs` when the text of every component is a JSON number
literal that `ParseFloat` reads back as that component; the text of a NaN or
of an infinity is no JSON number literal. -/
theorem C7_f2b_round_trip (lib : Strconv) (fs : List Float64) :
    f2b lib fs = "\x7b\"features\":[".toList ++ Join (fs.map lib.FormatFloat) ",".toList
      ++ "]\x7d".toList ∧
    (fs.map lib.FormatFloat).length = fs.length ∧
    f2b lib [] = "\x7b\"features\":[]\x7d".toList ∧
    ((∀ f ∈ fs, isJSONNumber (lib.FormatFloat f) = true ∧
        lib.ParseFloat (lib.FormatFloat f) = some f) →
      decodeFeature lib (f2b lib fs) = some ⟨fs⟩) ∧
    (∀ f : Float64, f.isFinite = false → isJSONNumber (lib.FormatFloat f) = false) := by
  refine ⟨f2b_eq lib fs, List.length_map _ _, rfl, ?_, FormatFloat_nonfinite lib⟩
  intro h
  rw [f2b_eq, decodeFeature_wrap]
  cases fs with
  | nil => rfl
  | cons f fs =>
    have hf := h f (List.mem_cons_self _ _)
    have hne : Join ((f :: fs).map lib.FormatFloat) ",".toList ≠ [] :=
      Join_ne_nil _ _ _ (isJSONNumber_ne_nil _ hf.1)
    rw [if_neg hne]
    have hsplit : (Join ((f :: fs).map lib.FormatFloat) ",".toList).splitOn ','
        = (f :: fs).map lib.FormatFloat := by
      apply List.splitOn_intercalate
      · intro l hl
        obtain ⟨g, hg, rfl⟩ := List.mem_map.mp hl
        exact scanNumber_no_comma _ _ (h g hg).1
      · simp
    rw [hsplit, mapM_decodeNumber lib (f :: fs) h]
    rfl

/-- C7, witness: the vector `[0, 1.5]` is encoded as `\x7b"features":[0,1.5]\x7d`
and decoded back. -/
theorem C7_f2b_round_trip_witness :
    f2b sampleStrconv [⟨0⟩, Float64.onePointFive] = "\x7b\"features\":[0,1.5]\x7d".toList ∧
    decodeFeature sampleStrconv (f2b sampleStrconv [⟨0⟩, Float64.onePointFive])
      = some ⟨[⟨0⟩, Float64.onePointFive]⟩ :=
  ⟨by decide,
    (C7_f2b_round_trip sampleStrconv [⟨0⟩, Float64.onePointFive]).2.2.2.1 (by decide)⟩

/-- C7, counterexample: the vector holding one NaN is encoded as
`\x7b"features":[NaN]\x7d`, and no `ParseFloat` makes that payload decode to the
vector, because `NaN` is no JSON number literal. -/
theorem C7_NaN_payload_not_decoded :
    f2b sampleStrconv [Float64.NaN] = "\x7b\"features\":[NaN]\x7d".toList ∧
    decodeFeature sampleStrconv (f2b sampleStrconv [Float64.NaN]) = none ∧
    ¬ ∃ lib : Strconv, decodeFeature lib (f2b lib [Float64.NaN]) = some ⟨[Float64.NaN]⟩ := by
  refine ⟨by decide, by decide, ?_⟩
  rintro ⟨lib, h⟩
  have hd : decodeFeature lib (f2b lib [Float64.NaN]) = none := rfl
  rw [hd] at h
  cases h

/-! ### One iteration of the loop of `converter.Convert` -/

theorem recordSize_eq_nodeSize (c : converter) (hdim : 0 ≤ c.dim)
    (hsize : 4 + 2 * 4 + 8 * c.dim < int64Bound) : c.nodeSize = (recordSize c : Int) := by
  rw [nodeSize_of_fits c hdim hsize]
  unfold recordSize
  push_cast
  omega

theorem count_eq_recordCount (c : converter) (ann : List UInt8) (hdim : 0 ≤ c.dim)
    (hsize : 4 + 2 * 4 + 8 * c.dim < int64Bound) : (c.count ann).toNat = recordCount c ann := by
  unfold converter.count recordCount
  rw [recordSize_eq_nodeSize c hdim hsize, ← Int.ofNat_tdiv]
  exact Int.toNat_ofNat _

/-- For a record index below the record count, `Pread` at `offset(k)` returns
the whole record `k`. -/
theorem Pread_record (c : converter) (ann : List UInt8) (k : Nat) (hdim : 0 ≤ c.dim)
    (hsize : 4 + 2 * 4 + 8 * c.dim < int64Bound) (hfile : (ann.length : Int) < int64Bound)
    (hk : k < recordCount c ann) :
    Pread ann (recordSize c) (c.offset k) = recordBytes c ann k ∧
      (recordBytes c ann k).length = recordSize c := by
  have hns := recordSize_eq_nodeSize c hdim hsize
  have hpos : 0 < recordSize c := by unfold recordSize; omega
  have hle : (k + 1) * recordSize c ≤ ann.length := by
    have h1 : (k + 1) ≤ ann.length / recordSize c := hk
    calc (k + 1) * recordSize c ≤ (ann.length / recordSize c) * recordSize c :=
          Nat.mul_le_mul_right _ h1
      _ ≤ ann.length := Nat.div_mul_le_self _ _
  have hle1 : k * recordSize c + recordSize c ≤ ann.length := by
    rw [Nat.add_mul] at hle; omega
  have hoff : c.offset k = ((k * recordSize c : Nat) : Int) := by
    rw [offset_of_fits c k]
    · rw [hns]; push_cast; ring
    · rw [hns]; positivity
    · rw [hns]
      have : ((k * recordSize c : Nat) : Int) ≤ ann.length := by exact_mod_cast (by omega)
      push_cast at this
      omega
  have hlen : (recordBytes c ann k).length = recordSize c := by
    unfold recordBytes
    rw [List.length_take, List.length_drop]
    omega
  refine ⟨?_, hlen⟩
  unfold Pread
  rw [hoff, Int.toNat_ofNat]
  change recordBytes c ann k ++ List.replicate (recordSize c - (recordBytes c ann k).length) 0 = _
  rw [hlen]
  simp
theorem makeLen_nodeSize (c : converter) (hdim : 0 ≤ c.dim)
    (hsize : 4 + 2 * 4 + 8 * c.dim < int64Bound) :
    makeLen 1 c.nodeSize = some (recordSize c) ∧ makeLen 8 c.dim = some c.dim.toNat := by
  have hns := recordSize_eq_nodeSize c hdim hsize
  unfold int64Bound at hsize
  constructor
  · unfold makeLen
    rw [hns, if_pos]
    · simp
    · have h0 := nodeSize_of_fits c hdim hsize
      rw [hns] at h0
      refine ⟨by positivity, ?_⟩
      rw [h0]
      norm_num at hsize ⊢
      omega
  · unfold makeLen
    rw [if_pos]
    refine ⟨hdim, ?_⟩
    norm_num at hsize ⊢
    omega

/-- One iteration of the loop of `converter.Convert` on a record that lies
within the file, in terms of the record's descendant count and vector. -/
theorem convertLoop_step (c : converter) (lib : Strconv) (env : Env) (ann : List UInt8)
    (mapPath : List Char) (maps : Maps) (remaining k : Nat) (events : List Event)
    (hdim : 0 ≤ c.dim) (hsize : 4 + 2 * 4 + 8 * c.dim < int64Bound)
    (hfile : (ann.length : Int) < int64Bound) (hk : k < recordCount c ann) :
    convertLoop c lib env ann mapPath maps (remaining + 1) (k : Int) events =
      match env.Pread k with
      | some e => ⟨events, Outcome.error e⟩
      | none =>
        if isLeaf c ann k = false then returnApply env events
        else
          match (if mapPath ≠ [] then maps.get k else some (k : Int)) with
          | none => ⟨events, Outcome.error Error.mappingNotFound⟩
          | some key =>
            match env.UpdateBinLog events key (f2b lib (leafVector c ann k)) with
            | some e => ⟨events, Outcome.error e⟩
            | none =>
              convertLoop c lib env ann mapPath maps remaining ((k + 1 : Nat) : Int)
                (events ++ [leafEntry c lib ann key k]) := by
  obtain ⟨hm1, hm8⟩ := makeLen_nodeSize c hdim hsize
  obtain ⟨hpr, hlen⟩ := Pread_record c ann k hdim hsize hfile hk
  have h12 : 12 + 8 * c.dim.toNat = recordSize c := by unfold recordSize; omega
  obtain ⟨hi4, hs4, hv4⟩ := readInt32_index c.order (recordBytes c ann k) (by omega)
  have hrd : (readInt32 c.order (NewReader (recordBytes c ann k))).2.seekCurrent (4 * 2)
      = ⟨recordBytes c ann k, 12⟩ := by
    cases hr : (readInt32 c.order (NewReader (recordBytes c ann k))).2 with
    | mk s j =>
      rw [hr] at hi4 hs4
      simp only at hi4 hs4
      subst hi4 hs4
      rfl
  obtain ⟨hvec, _⟩ := readFloat64s_at c.order (recordBytes c ann k) 12 c.dim.toNat (by omega)
  rw [convertLoop]
  simp only [hm1, hm8, hpr]
  cases env.Pread k with
  | some e => rfl
  | none =>
    simp only [hrd, hvec, hv4]
    by_cases hleaf : isLeaf c ann k = false
    · have hd : descendants c ann k ≠ 1 := by
        simpa [isLeaf] using hleaf
      unfold descendants at hd
      simp only [hleaf, if_true, ne_eq, hd, not_false_eq_true]
    · have hd : descendants c ann k = 1 := by
        simpa [isLeaf] using hleaf
      unfold descendants at hd
      simp only [hleaf, if_false, ne_eq, hd, not_true_eq_false]
      rfl
/-! ### The tree-file import without a mapping file -/

theorem returnApply_events (env : Env) (events : List Event) :
    (returnApply env events).events = events ++ [Event.Apply] := by
  unfold returnApply
  cases env.Apply events <;> rfl

theorem returnApply_outcome (env : Env) (events : List Event) :
    (returnApply env events).outcome
      = (match env.Apply events with
        | some e => Outcome.error e
        | none => Outcome.ok) := by
  unfold returnApply
  cases env.Apply events <;> rfl


/-- Without a mapping file the loop journals the leading run of leaf records and
goes on to `Apply`. -/
theorem convertLoop_no_map (c : converter) (lib : Strconv) (env : Env) (ann : List UInt8)
    (maps : Maps) (hdim : 0 ≤ c.dim) (hsize : 4 + 2 * 4 + 8 * c.dim < int64Bound)
    (hfile : (ann.length : Int) < int64Bound)
    (hpread : ∀ i, env.Pread i = none) (hupd : ∀ ev key p, env.UpdateBinLog ev key p = none) :
    ∀ (remaining k : Nat) (events : List Event), k + remaining = recordCount c ann →
      convertLoop c lib env ann [] maps remaining (k : Int) events
        = returnApply env (events ++
            ((List.range' k remaining).takeWhile (isLeaf c ann)).map
              (fun j : Nat => leafEntry c lib ann (j : Int) j)) := by
  intro remaining
  induction remaining with
  | zero => intro k events _; simp [convertLoop]
  | succ n ih =>
    intro k events hk
    rw [convertLoop_step c lib env ann [] maps n k events hdim hsize hfile (by omega)]
    rw [hpread, List.range'_succ, List.takeWhile_cons]
    cases hleaf : isLeaf c ann k with
    | false => simp
    | true =>
      simp only [Bool.true_eq_false, if_false, ne_eq, not_true_eq_false, hupd]
      rw [ih (k + 1) _ (by omega)]
      simp

/-- C3 (as amended): for every tree file of dimension `dim ≥ 0` (record size
within the 64-bit range) imported with no mapping file, all collaborator calls
succeeding up to `Apply`, the number of records is `floor(size / nodeSize)` and
the journal entries appended by `converter.Convert` are exactly one `UPDATE`
per record of the leading run of leaf records (descendant-count field equal to
one), in increasing record index, each keyed by its positional index and
carrying that record's vector; the scan stops at the first non-leaf record, so
no record after it is imported; `Apply` is then called once and its result
returned. -/
theorem C3_import_leading_leaves (c : converter) (lib : Strconv) (env : Env)
    (ann : List UInt8) (mapFile : List Line)
    (hdim : 0 ≤ c.dim) (hsize : 4 + 2 * 4 + 8 * c.dim < int64Bound)
    (hfile : (ann.length : Int) < int64Bound)
    (hopen : env.OpenFrom = none) (hcreate : env.CreateGraphAndTree = none)
    (hsave : env.Save = none) (hnew : env.NewNGTIndex = none)
    (hpread : ∀ i, env.Pread i = none) (hupd : ∀ ev key p, env.UpdateBinLog ev key p = none) :
    c.count ann = (recordCount c ann : Int) ∧
    (c.Convert lib env ann [] mapFile).events
      = ((List.range (recordCount c ann)).takeWhile (isLeaf c ann)).map
          (fun k : Nat => leafEntry c lib ann (k : Int) k) ++ [Event.Apply] ∧
    (c.Convert lib env ann [] mapFile).outcome
      = (match env.Apply (((List.range (recordCount c ann)).takeWhile (isLeaf c ann)).map
          (fun k : Nat => leafEntry c lib ann (k : Int) k)) with
        | some e => Outcome.error e
        | none => Outcome.ok) := by
  have hns := recordSize_eq_nodeSize c hdim hsize
  have hcount := count_eq_recordCount c ann hdim hsize
  have hne : c.nodeSize ≠ 0 := by
    rw [hns]; unfold recordSize; omega
  have hrun : c.Convert lib env ann [] mapFile
      = returnApply env
          (((List.range (recordCount c ann)).takeWhile (isLeaf c ann)).map
            (fun k : Nat => leafEntry c lib ann (k : Int) k)) := by
    unfold converter.Convert
    simp only [hopen, hcreate, hsave, hnew, ne_eq, not_true_eq_false, if_false, hne, hcount]
    have h := convertLoop_no_map c lib env ann [] hdim hsize hfile hpread hupd
      (recordCount c ann) 0 [] (by simp)
    rw [List.range_eq_range']
    simpa using h
  refine ⟨?_, ?_, ?_⟩
  · unfold converter.count recordCount
    rw [hns, ← Int.ofNat_tdiv]
  · rw [hrun, returnApply_events]
  · rw [hrun, returnApply_outcome]

/-- C3, witness: dimension 1, a file of two leaf records holding `1.5`. -/
theorem C3_import_leading_leaves_witness :
    (converter.Convert ⟨1, 1, ByteOrder.LittleEndian⟩ sampleStrconv Env.allOk
        (treeLeaf ++ treeLeaf) [] []).events
      = [Event.UpdateBinLog 0 Op.UPDATE "\x7b\"features\":[1.5]\x7d".toList,
          Event.UpdateBinLog 1 Op.UPDATE "\x7b\"features\":[1.5]\x7d".toList,
          Event.Apply] ∧
    (converter.Convert ⟨1, 1, ByteOrder.LittleEndian⟩ sampleStrconv Env.allOk
        (treeLeaf ++ treeLeaf) [] []).outcome = Outcome.ok := by
  have h := C3_import_leading_leaves ⟨1, 1, ByteOrder.LittleEndian⟩ sampleStrconv Env.allOk
    (treeLeaf ++ treeLeaf) [] (by decide) (by decide) (by decide) rfl rfl rfl rfl
    (fun _ => rfl) (fun _ _ _ => rfl)
  exact ⟨h.2.1.trans (by decide), h.2.2.trans (by decide)⟩

/-- C3, counterexample: dimension 1, a file of a leaf, a non-leaf (descendant
count 2) and a leaf.  Record 2 is a leaf that follows the non-leaf record, and
`Convert` journals record 0 only. -/
theorem C3_leaf_after_node_not_imported :
    isLeaf ⟨1, 1, ByteOrder.LittleEndian⟩ (treeLeaf ++ treeNode ++ treeLeaf) 2 = true ∧
    converter.Convert ⟨1, 1, ByteOrder.LittleEndian⟩ sampleStrconv Env.allOk
        (treeLeaf ++ treeNode ++ treeLeaf) [] []
      = ⟨[Event.UpdateBinLog 0 Op.UPDATE "\x7b\"features\":[1.5]\x7d".toList, Event.Apply],
          Outcome.ok⟩ := by
  constructor <;> decide
/-! ### The tree-file import with a mapping file -/

/-- With a mapping file the loop journals a run of mapped leaves, each under the
key the table gives it, and arrives at the record that follows them. -/
theorem convertLoop_mapped_run (c : converter) (lib : Strconv) (env : Env) (ann : List UInt8)
    (mapPath : List Char) (maps : Maps) (k : Nat)
    (hdim : 0 ≤ c.dim) (hsize : 4 + 2 * 4 + 8 * c.dim < int64Bound)
    (hfile : (ann.length : Int) < int64Bound) (hpath : mapPath ≠ [])
    (hk : k < recordCount c ann)
    (hbefore : ∀ j < k, isLeaf c ann j = true ∧ (maps.get j).isSome = true)
    (hpread : ∀ j : Nat, j ≤ k → env.Pread j = none)
    (hupd : ∀ ev key p, env.UpdateBinLog ev key p = none) :
    ∀ (n j : Nat) (remaining : Nat) (events : List Event), j + n = k →
      convertLoop c lib env ann mapPath maps (n + (remaining + 1)) (j : Int) events
        = convertLoop c lib env ann mapPath maps (remaining + 1) (k : Int)
            (events ++ (List.range' j n).map
              (fun i : Nat => leafEntry c lib ann ((maps.get i).getD 0) i)) := by
  intro n
  induction n with
  | zero =>
    intro j remaining events hj
    have : j = k := by omega
    subst this
    simp
  | succ n ih =>
    intro j remaining events hj
    have hjk : j < k := by omega
    obtain ⟨hleaf, hsome⟩ := hbefore j hjk
    obtain ⟨key, hkey⟩ := Option.isSome_iff_exists.mp hsome
    have hstep := convertLoop_step c lib env ann mapPath maps (n + remaining + 1) j events
      hdim hsize hfile (by omega)
    have hshape : n + 1 + (remaining + 1) = n + remaining + 1 + 1 := by omega
    rw [hshape, hstep, hpread j (by omega)]
    simp only [hleaf, Bool.true_eq_false, if_false, ne_eq, hpath, not_false_eq_true, if_true,
      hkey, hupd]
    have hshape2 : n + remaining + 1 = n + (remaining + 1) := by omega
    rw [hshape2, ih (j + 1) remaining _ (by omega), List.range'_succ]
    simp [hkey]

/-- C1: for every tree file, dimension (record size within the 64-bit range)
and supplied mapping file from which `initializeMaps` builds a table: if
`converter.Convert` reaches a leaf record whose positional index `k` has no
entry in the table (every earlier record being a leaf with an entry, and the
reads and journal appends before it succeeding), `Convert` returns the error
`Index is not found in mapping file`; it does not fall back to the key `k`; the
journal holds the entries of the `k` earlier records and none for record `k`
or a later one; and `Apply` is not invoked. -/
theorem C1_missing_mapping_fails (c : converter) (lib : Strconv) (env : Env)
    (ann : List UInt8) (mapPath : List Char) (mapFile : List Line) (maps : Maps) (k : Nat)
    (hdim : 0 ≤ c.dim) (hsize : 4 + 2 * 4 + 8 * c.dim < int64Bound)
    (hfile : (ann.length : Int) < int64Bound) (hpath : mapPath ≠ [])
    (hopen : env.OpenFrom = none) (hcreate : env.CreateGraphAndTree = none)
    (hsave : env.Save = none) (hnew : env.NewNGTIndex = none)
    (hmaps : converter.initializeMaps env mapFile = MapsResult.ok maps)
    (hk : k < recordCount c ann)
    (hbefore : ∀ j < k, isLeaf c ann j = true ∧ (maps.get j).isSome = true)
    (hpread : ∀ j : Nat, j ≤ k → env.Pread j = none)
    (hupd : ∀ ev key p, env.UpdateBinLog ev key p = none)
    (hleaf : isLeaf c ann k = true) (hmiss : maps.get k = none) :
    c.Convert lib env ann mapPath mapFile
      = ⟨(List.range k).map (fun i : Nat => leafEntry c lib ann ((maps.get i).getD 0) i),
          Outcome.error Error.mappingNotFound⟩ ∧
    Event.Apply ∉ (c.Convert lib env ann mapPath mapFile).events ∧
    (∀ key payload, Event.UpdateBinLog key Op.UPDATE payload ∈
        (c.Convert lib env ann mapPath mapFile).events →
      ∃ i < k, key = (maps.get i).getD 0 ∧ payload = f2b lib (leafVector c ann i)) := by
  have hns := recordSize_eq_nodeSize c hdim hsize
  have hcount := count_eq_recordCount c ann hdim hsize
  have hne : c.nodeSize ≠ 0 := by
    rw [hns]; unfold recordSize; omega
  have hrun : c.Convert lib env ann mapPath mapFile
      = ⟨(List.range k).map (fun i : Nat => leafEntry c lib ann ((maps.get i).getD 0) i),
          Outcome.error Error.mappingNotFound⟩ := by
    unfold converter.Convert
    simp only [hopen, hcreate, hsave, hnew, ne_eq, hpath, not_false_eq_true, if_true, hmaps,
      hne, if_false, hcount]
    obtain ⟨r, hr⟩ : ∃ r, recordCount c ann = k + (r + 1) := ⟨recordCount c ann - k - 1, by omega⟩
    have h := convertLoop_mapped_run c lib env ann mapPath maps k hdim hsize hfile hpath hk
      hbefore hpread hupd k 0 r [] (by simp)
    rw [hr]
    have h0 : ((0 : Nat) : Int) = 0 := rfl
    rw [h0] at h
    rw [h, convertLoop_step c lib env ann mapPath maps r k _ hdim hsize hfile hk,
      hpread k (le_refl k)]
    simp only [hleaf, Bool.true_eq_false, if_false, ne_eq, hpath, not_false_eq_true, if_true,
      hmiss, List.nil_append, List.range_eq_range']
  refine ⟨hrun, ?_, ?_⟩
  · rw [hrun]
    simp [leafEntry]
  · intro key payload hmem
    rw [hrun] at hmem
    simp only [List.mem_map, List.mem_range, leafEntry, Event.UpdateBinLog.injEq, true_and] at hmem
    obtain ⟨i, hi, h1, h2⟩ := hmem
    exact ⟨i, hi, h1.symm, h2.symm⟩

/-- C1, witness: dimension 1, three leaves, the mapping row `5,0`: the leaf at
index 0 is journaled under key 5, the leaf at index 1 has no entry in the
table and the import fails there. -/
theorem C1_missing_mapping_fails_witness :
    converter.Convert ⟨1, 1, ByteOrder.LittleEndian⟩ sampleStrconv Env.allOk
        (treeLeaf ++ treeLeaf ++ treeLeaf) "map.csv".toList
        [Line.fields "5".toList ["0".toList]]
      = ⟨[Event.UpdateBinLog 5 Op.UPDATE "\x7b\"features\":[1.5]\x7d".toList],
          Outcome.error Error.mappingNotFound⟩ :=
  (C1_missing_mapping_fails ⟨1, 1, ByteOrder.LittleEndian⟩ sampleStrconv Env.allOk
    (treeLeaf ++ treeLeaf ++ treeLeaf) "map.csv".toList
    [Line.fields "5".toList ["0".toList]] [(0, 5)] 1
    (by decide) (by decide) (by decide) (by decide) rfl rfl rfl rfl (by decide) (by decide)
    (by intro j hj; have : j = 0 := by omega
        subst this; decide)
    (fun _ _ => rfl) (fun _ _ _ => rfl) (by decide) (by decide)).1.trans (by decide)

/-! ### The mapping table -/

theorem Maps.get_cons (maps : Maps) (a b i : Int) :
    Maps.get ((a, b) :: maps) i = if i = a then some b else Maps.get maps i := by
  unfold Maps.get
  rw [List.lookup_cons]
  by_cases h : i = a
  · simp [h]
  · have : (i == a) = false := by simpa using h
    rw [this, if_neg h]

theorem Maps.get_append_of_absent (l1 l2 : Maps) (i : Int) (h : ∀ x ∈ l1, x.1 ≠ i) :
    Maps.get (l1 ++ l2) i = Maps.get l2 i := by
  induction l1 with
  | nil => rfl
  | cons x xs ih =>
    obtain ⟨a, b⟩ := x
    have ha : i ≠ a := fun hi => h (a, b) (List.mem_cons_self _ _) hi.symm
    change Maps.get ((a, b) :: (xs ++ l2)) i = _
    rw [Maps.get_cons, if_neg ha]
    exact ih (fun y hy => h y (List.mem_cons_of_mem _ hy))

theorem Maps.mem_of_get (maps : Maps) (i k : Int) (h : Maps.get maps i = some k) :
    (i, k) ∈ maps := by
  induction maps with
  | nil => simp [Maps.get] at h
  | cons x xs ih =>
    obtain ⟨a, b⟩ := x
    rw [Maps.get_cons] at h
    by_cases hi : i = a
    · rw [if_pos hi] at h
      cases h
      rw [hi]
      exact List.mem_cons_self _ _
    · rw [if_neg hi] at h
      exact List.mem_cons_of_mem _ (ih h)

theorem Maps.get_none_iff (maps : Maps) (i : Int) :
    Maps.get maps i = none ↔ ∀ x ∈ maps, x.1 ≠ i := by
  induction maps with
  | nil => simp [Maps.get]
  | cons x xs ih =>
    obtain ⟨a, b⟩ := x
    rw [Maps.get_cons]
    by_cases hi : i = a
    · rw [if_pos hi]
      simp [hi]
    · rw [if_neg hi, ih]
      simp only [List.mem_cons, forall_eq_or_imp, ne_eq]
      exact ⟨fun h => ⟨fun ha => hi ha.symm, h⟩, fun h => h.2⟩

/-- On rows of two integer fields the read loop of `initializeMaps` assigns, row
by row, the first column to the index in the second column. -/
theorem initializeMapsLoop_integerPairs :
    ∀ (lines : List Line) (pairs : List (Int × Int)) (fpr n : Nat) (maps : Maps),
      fpr = 0 ∨ fpr = 2 → integerPairs lines = some pairs →
      initializeMapsLoop lines fpr n maps
        = MapsResult.ok ((pairs.map (fun kp => (kp.2, kp.1))).reverse ++ maps) := by
  intro lines
  induction lines with
  | nil =>
    intro pairs fpr n maps _ h
    simp only [integerPairs, Option.some.injEq] at h
    subst h
    rfl
  | cons l ls ih =>
    intro pairs fpr n maps hfpr h
    cases l with
    | malformed => simp [integerPairs] at h
    | fields a rest =>
      match rest, h with
      | [b], h =>
        unfold integerPairs at h
        cases ha : Atoi a with
        | error e => rw [ha] at h; simp at h
        | ok x =>
          cases hb : Atoi b with
          | error e => rw [ha, hb] at h; simp at h
          | ok y =>
            cases hps : integerPairs ls with
            | none => rw [ha, hb, hps] at h; simp at h
            | some ps =>
              rw [ha, hb, hps] at h
              simp only [Option.some.injEq] at h
              subst h
              have hread : readLine fpr n (Line.fields a [b]) = (ReadResult.record [a, b], 2) := by
                rcases hfpr with h0 | h2
                · subst h0; rfl
                · subst h2; rfl
              unfold initializeMapsLoop
              simp only [hread, List.getElem?_cons_zero, ha, List.getElem?_cons_succ, hb]
              rw [ih ps 2 (n + 1) _ (Or.inr rfl) hps]
              simp [Maps.assign]
      | [], h => simp [integerPairs] at h
      | _ :: _ :: _, h => simp [integerPairs] at h
/-- The loop only ever adds events after the ones it starts with. -/
theorem convertLoop_extends (c : converter) (lib : Strconv) (env : Env) (ann : List UInt8)
    (mapPath : List Char) (maps : Maps)
    (hdim : 0 ≤ c.dim) (hsize : 4 + 2 * 4 + 8 * c.dim < int64Bound)
    (hfile : (ann.length : Int) < int64Bound) :
    ∀ (remaining k : Nat) (events : List Event), k + remaining ≤ recordCount c ann →
      ∃ more, (convertLoop c lib env ann mapPath maps remaining (k : Int) events).events
        = events ++ more := by
  intro remaining
  induction remaining with
  | zero =>
    intro k events _
    refine ⟨[Event.Apply], ?_⟩
    unfold convertLoop returnApply
    cases env.Apply events <;> rfl
  | succ n ih =>
    intro k events hk
    rw [convertLoop_step c lib env ann mapPath maps n k events hdim hsize hfile (by omega)]
    cases env.Pread k with
    | some e => exact ⟨[], by simp⟩
    | none =>
      cases hleaf : isLeaf c ann k with
      | false =>
        refine ⟨[Event.Apply], ?_⟩
        simp only [if_true]
        unfold returnApply
        cases env.Apply events <;> rfl
      | true =>
        simp only [Bool.true_eq_false, if_false]
        cases (if mapPath ≠ [] then maps.get k else some (k : Int)) with
        | none => exact ⟨[], by simp⟩
        | some key =>
          simp only []
          cases env.UpdateBinLog events key (f2b lib (leafVector c ann k)) with
          | some e => exact ⟨[], by simp⟩
          | none =>
            obtain ⟨more, hmore⟩ := ih (k + 1) (events ++ [leafEntry c lib ann key k]) (by omega)
            refine ⟨leafEntry c lib ann key k :: more, ?_⟩
            simp only []
            rw [hmore]
            simp

/-- C2 (as amended): for every mapping file whose rows are well-formed integer
pairs, the table built by `initializeMaps` sends the second column of each row
to its first column, a later row replacing an earlier one with the same second
column: a row `k,p` (desired external key first, positional index second) that
no later row overrides makes `converter.Convert` journal the leaf at
positional index `p` under the external key `k`, as its entry number `p`, when
the records up to `p` are leaves whose positional indices all have rows. -/
theorem C2_mapping_rows (c : converter) (lib : Strconv) (env : Env) (ann : List UInt8)
    (mapPath : List Char) (mapFile : List Line) (before after : List (Int × Int))
    (k : Int) (p : Nat)
    (hdim : 0 ≤ c.dim) (hsize : 4 + 2 * 4 + 8 * c.dim < int64Bound)
    (hfile : (ann.length : Int) < int64Bound) (hpath : mapPath ≠ [])
    (hopen : env.OpenFrom = none) (hopenMap : env.OpenMap = none)
    (hcreate : env.CreateGraphAndTree = none)
    (hsave : env.Save = none) (hnew : env.NewNGTIndex = none)
    (hpread : ∀ j : Nat, j ≤ p → env.Pread j = none)
    (hupd : ∀ ev key payload, env.UpdateBinLog ev key payload = none)
    (hrows : integerPairs mapFile = some (before ++ (k, (p : Int)) :: after))
    (hlast : ∀ kp ∈ after, kp.2 ≠ (p : Int))
    (hp : p < recordCount c ann)
    (hleaves : ∀ j : Nat, j ≤ p → isLeaf c ann j = true)
    (hmapped : ∀ j : Nat, j < p → ∃ kj : Int, (kj, (j : Int)) ∈ before ++ (k, (p : Int)) :: after) :
    ∃ maps : Maps,
      converter.initializeMaps env mapFile = MapsResult.ok maps ∧
      maps = ((before ++ (k, (p : Int)) :: after).map (fun kp => (kp.2, kp.1))).reverse ∧
      maps.get p = some k ∧
      (∀ i key : Int, maps.get i = some key → (key, i) ∈ before ++ (k, (p : Int)) :: after) ∧
      (c.Convert lib env ann mapPath mapFile).events[p]? = some (leafEntry c lib ann k p) := by
  have hinit : converter.initializeMaps env mapFile = MapsResult.ok
      (((before ++ (k, (p : Int)) :: after).map (fun kp => (kp.2, kp.1))).reverse) := by
    unfold converter.initializeMaps
    rw [hopenMap]
    have h := initializeMapsLoop_integerPairs mapFile _ 0 0 [] (Or.inl rfl) hrows
    simpa using h
  refine ⟨_, hinit, rfl, ?_, ?_, ?_⟩
  · rw [List.map_append, List.map_cons, List.reverse_append, List.reverse_cons,
      List.append_assoc, Maps.get_append_of_absent]
    · change Maps.get ((↑p, k) :: _) ↑p = some k
      rw [Maps.get_cons, if_pos rfl]
    · intro x hx
      rw [List.mem_reverse, List.mem_map] at hx
      obtain ⟨kp, hkp, rfl⟩ := hx
      exact hlast kp hkp
  · intro i key h
    have hmem := Maps.mem_of_get _ i key h
    rw [List.mem_reverse, List.mem_map] at hmem
    obtain ⟨kp, hkp, heq⟩ := hmem
    obtain ⟨a, b⟩ := kp
    simp only [Prod.mk.injEq] at heq
    obtain ⟨h1, h2⟩ := heq
    subst h1 h2
    exact hkp
  · have hns := recordSize_eq_nodeSize c hdim hsize
    have hcount := count_eq_recordCount c ann hdim hsize
    have hne : c.nodeSize ≠ 0 := by
      rw [hns]; unfold recordSize; omega
    have hget : Maps.get (((before ++ (k, (p : Int)) :: after).map
        (fun kp => (kp.2, kp.1))).reverse) p = some k := by
      rw [List.map_append, List.map_cons, List.reverse_append, List.reverse_cons,
        List.append_assoc, Maps.get_append_of_absent]
      · change Maps.get ((↑p, k) :: _) ↑p = some k
        rw [Maps.get_cons, if_pos rfl]
      · intro x hx
        rw [List.mem_reverse, List.mem_map] at hx
        obtain ⟨kp, hkp, rfl⟩ := hx
        exact hlast kp hkp
    have hbefore : ∀ j < p, isLeaf c ann j = true ∧
        (Maps.get (((before ++ (k, (p : Int)) :: after).map
          (fun kp => (kp.2, kp.1))).reverse) j).isSome = true := by
      intro j hj
      refine ⟨hleaves j (by omega), ?_⟩
      obtain ⟨kj, hkj⟩ := hmapped j hj
      rw [Option.isSome_iff_ne_none, ne_eq, Maps.get_none_iff]
      intro hall
      refine hall ((j : Int), kj) ?_ rfl
      rw [List.mem_reverse, List.mem_map]
      exact ⟨(kj, (j : Int)), hkj, rfl⟩
    obtain ⟨r, hr⟩ : ∃ r, recordCount c ann = p + (r + 1) := ⟨recordCount c ann - p - 1, by omega⟩
    have hrun := convertLoop_mapped_run c lib env ann mapPath _ p hdim hsize hfile hpath hp
      hbefore hpread hupd p 0 r [] (by simp)
    have h0 : ((0 : Nat) : Int) = 0 := rfl
    rw [h0] at hrun
    obtain ⟨more, hmore⟩ := convertLoop_extends c lib env ann mapPath
      (((before ++ (k, (p : Int)) :: after).map (fun kp => (kp.2, kp.1))).reverse)
      hdim hsize hfile r (p + 1)
      ([] ++ (List.range' 0 p).map (fun i : Nat => leafEntry c lib ann
        ((Maps.get (((before ++ (k, (p : Int)) :: after).map
          (fun kp => (kp.2, kp.1))).reverse) i).getD 0) i) ++ [leafEntry c lib ann k p])
      (by omega)
    unfold converter.Convert
    simp only [hopen, hcreate, hsave, hnew, ne_eq, hpath, not_false_eq_true, if_true, hinit,
      hne, if_false, hcount]
    rw [hr, hrun, convertLoop_step c lib env ann mapPath _ r p _ hdim hsize hfile hp,
      hpread p (le_refl p)]
    simp only [hleaves p (le_refl p), Bool.true_eq_false, if_false, ne_eq, hpath,
      not_false_eq_true, if_true, hget, hupd]
    rw [hmore]
    simp only [List.nil_append, List.append_assoc, List.singleton_append]
    rw [List.getElem?_append_right (by simp)]
    simp

/-- C2, witness: the mapping row `5,0` and a tree file of one leaf; the leaf at
positional index 0 is journaled under the key 5. -/
theorem C2_mapping_rows_witness :
    ∃ maps : Maps,
      converter.initializeMaps Env.allOk [Line.fields "5".toList ["0".toList]]
        = MapsResult.ok maps ∧
      maps.get 0 = some 5 ∧
      (converter.Convert ⟨1, 1, ByteOrder.LittleEndian⟩ sampleStrconv Env.allOk treeLeaf
          "map.csv".toList [Line.fields "5".toList ["0".toList]]).events[0]?
        = some (Event.UpdateBinLog 5 Op.UPDATE "\x7b\"features\":[1.5]\x7d".toList) := by
  obtain ⟨maps, h1, _, h3, _, h5⟩ := C2_mapping_rows ⟨1, 1, ByteOrder.LittleEndian⟩
    sampleStrconv Env.allOk treeLeaf "map.csv".toList [Line.fields "5".toList ["0".toList]]
    [] [] 5 0 (by decide) (by decide) (by decide) (by decide) rfl rfl rfl rfl rfl
    (fun _ _ => rfl) (fun _ _ _ => rfl) (by decide) (by simp) (by decide)
    (by intro j hj; have : j = 0 := by omega
        subst this; decide)
    (by intro j hj; omega)
  exact ⟨maps, h1, h3, h5.trans (by decide)⟩

/-- C2, counterexample: the mapping row `5,0`, read as positional index 5 and
external key 0, and a tree file of six leaves.  The table has no entry for
index 5 and sends index 0 to key 5; `Convert` journals the leaf at positional
index 0 under key 5 and fails at the leaf at index 1, so the leaf at index 5
is not journaled under key 0. -/
theorem C2_first_column_is_the_key :
    converter.initializeMaps Env.allOk [Line.fields "5".toList ["0".toList]]
      = MapsResult.ok [(0, 5)] ∧
    Maps.get [(0, 5)] 5 = none ∧
    Maps.get [(0, 5)] 0 = some 5 ∧
    converter.Convert ⟨1, 1, ByteOrder.LittleEndian⟩ sampleStrconv Env.allOk
        (treeLeaf ++ treeLeaf ++ treeLeaf ++ treeLeaf ++ treeLeaf ++ treeLeaf)
        "map.csv".toList [Line.fields "5".toList ["0".toList]]
      = ⟨[Event.UpdateBinLog 5 Op.UPDATE "\x7b\"features\":[1.5]\x7d".toList],
          Outcome.error Error.mappingNotFound⟩ := by
  refine ⟨by decide, by decide, by decide, by decide⟩


/-! ### Short rows of a mapping file -/

/-- A mapping file whose first row is a single integer field makes
`initializeMaps` panic. -/
theorem initializeMaps_one_field_panics (env : Env) (a : List Char) (rest : List Line)
    (key : Int) (hopen : env.OpenMap = none) (ha : Atoi a = Except.ok key) :
    converter.initializeMaps env (Line.fields a [] :: rest) = MapsResult.panic := by
  unfold converter.initializeMaps
  rw [hopen]
  simp only [initializeMapsLoop, readLine, Nat.lt_irrefl, if_false, List.getElem?_cons_zero, ha,
    List.getElem?_cons_succ, List.getElem?_nil]

/-- C9, the code at the failing input: on a mapping file whose first row is
the single field `5`, `initializeMaps` parses `record[0]` and then evaluates
`record[1]`, which is out of range: the call ends in a run-time panic and
returns neither a table nor an error.  A single non-integer field is
answered with the error of `Atoi` before `record[1]` is touched, and a short
row after a two-field row is refused by the reader with a field-count
error. -/
theorem C9_one_field_row_panics :
    converter.initializeMaps Env.allOk [Line.fields "5".toList []] = MapsResult.panic ∧
    converter.initializeMaps Env.allOk [Line.fields "x".toList []]
      = MapsResult.error (Error.atoiSyntax "x".toList) ∧
    converter.initializeMaps Env.allOk
        [Line.fields "5".toList ["0".toList], Line.fields "6".toList []]
      = MapsResult.error (Error.csvFieldCount 2) := by
  refine ⟨by decide, by decide, by decide⟩

/-! ### The CSV import -/

theorem parseFloats_length (lib : Strconv) :
    ∀ (comps : List (List Char)) (vals : List Float64),
      parseFloats lib comps = some vals → vals.length = comps.length := by
  intro comps
  induction comps with
  | nil => intro vals h; simp only [parseFloats, Option.some.injEq] at h; subst h; rfl
  | cons f fs ih =>
    intro vals h
    unfold parseFloats at h
    cases hf : lib.ParseFloat f with
    | none => rw [hf] at h; simp at h
    | some v =>
      cases hfs : parseFloats lib fs with
      | none => rw [hf, hfs] at h; simp at h
      | some vs =>
        rw [hf, hfs] at h
        simp only [Option.some.injEq] at h
        subst h
        simp [ih vs hfs]

/-- Filling `vec` from fields that all parse, with room for them: the values
land in the slots from index `i` on. -/
theorem fillVec_ok (lib : Strconv) :
    ∀ (comps : List (List Char)) (vals : List Float64) (i : Nat)
      (done blanks rest : List Float64),
      parseFloats lib comps = some vals → done.length = i → blanks.length = comps.length →
      fillVec lib comps i (done ++ blanks ++ rest) = FillResult.ok (done ++ vals ++ rest) := by
  intro comps
  induction comps with
  | nil =>
    intro vals i done blanks rest h _ hb
    simp only [parseFloats, Option.some.injEq] at h
    subst h
    have : blanks = [] := List.length_eq_zero.mp hb
    simp [fillVec, this]
  | cons f fs ih =>
    intro vals i done blanks rest h hd hb
    unfold parseFloats at h
    cases hf : lib.ParseFloat f with
    | none => rw [hf] at h; simp at h
    | some v =>
      cases hfs : parseFloats lib fs with
      | none => rw [hf, hfs] at h; simp at h
      | some vs =>
        rw [hf, hfs] at h
        simp only [Option.some.injEq] at h
        subst h
        cases blanks with
        | nil => simp at hb
        | cons b bl =>
          have hlt : i < (done ++ b :: bl ++ rest).length := by
            simp only [List.length_append, List.length_cons]; omega
          have hset : (done ++ b :: bl ++ rest).set i v = (done ++ [v]) ++ bl ++ rest := by
            subst hd
            simp [List.set_append]
          rw [fillVec, hf]
          simp only [hlt, if_true, hset]
          rw [ih vs (i + 1) (done ++ [v]) bl rest hfs (by simp [hd]) (by simpa using hb)]
          simp

/-- Filling a zeroed `vec` of `dim` entries from at most `dim` fields that all
parse leaves the values followed by zeros. -/
theorem fillVec_zeros (lib : Strconv) (comps : List (List Char)) (vals : List Float64)
    (dim : Nat) (h : parseFloats lib comps = some vals) (hle : comps.length ≤ dim) :
    fillVec lib comps 0 (List.replicate dim Float64.zero) = FillResult.ok (padTo dim vals) := by
  have hlen := parseFloats_length lib comps vals h
  have hsplit : List.replicate dim Float64.zero
      = [] ++ List.replicate comps.length Float64.zero
          ++ List.replicate (dim - comps.length) Float64.zero := by
    rw [List.nil_append, ← List.replicate_add]
    congr 1
    omega
  rw [hsplit, fillVec_ok lib comps vals 0 [] _ _ h rfl (by simp)]
  simp [padTo, hlen]

/-- With more fields than slots the fill loop never completes. -/
theorem fillVec_too_long (lib : Strconv) :
    ∀ (comps : List (List Char)) (i : Nat) (vec : List Float64),
      i ≤ vec.length → vec.length < i + comps.length →
      ∀ out, fillVec lib comps i vec ≠ FillResult.ok out := by
  intro comps
  induction comps with
  | nil => intro i vec h0 h; simp at h; omega
  | cons f fs ih =>
    intro i vec h0 h out
    simp only [List.length_cons] at h
    rw [fillVec]
    cases lib.ParseFloat f with
    | none => simp
    | some v =>
      simp only []
      by_cases hi : i < vec.length
      · rw [if_pos hi]
        exact ih (i + 1) _ (by rw [List.length_set]; omega) (by rw [List.length_set]; omega) out
      · rw [if_neg hi]
        simp

/-- With a field that does not parse and room for all fields the fill loop
returns the error of the first such field. -/
theorem fillVec_error (lib : Strconv) :
    ∀ (comps : List (List Char)) (i : Nat) (vec : List Float64),
      parseFloats lib comps = none → i + comps.length ≤ vec.length →
      ∃ f ∈ comps, lib.ParseFloat f = none ∧
        fillVec lib comps i vec = FillResult.error (Error.parseFloat f) := by
  intro comps
  induction comps with
  | nil => intro i vec h; simp [parseFloats] at h
  | cons f fs ih =>
    intro i vec h hle
    simp only [List.length_cons] at hle
    unfold parseFloats at h
    rw [fillVec]
    cases hf : lib.ParseFloat f with
    | none => exact ⟨f, List.mem_cons_self _ _, hf, rfl⟩
    | some v =>
      have hfs : parseFloats lib fs = none := by
        cases hh : parseFloats lib fs with
        | none => rfl
        | some vs => rw [hf, hh] at h; simp at h
      have hi : i < vec.length := by omega
      simp only [hi, if_true]
      obtain ⟨g, hg, hgn, hgr⟩ := ih (i + 1) (vec.set i v) hfs (by rw [List.length_set]; omega)
      exact ⟨g, List.mem_cons_of_mem _ hg, hgn, hgr⟩

/-- One iteration of the read loop of `csvConverter.Convert` on a record. -/
theorem csvConvertLoop_fields (c : csvConverter) (lib : Strconv) (env : Env)
    (kf : List Char) (comps : List (List Char)) (ls : List Line) (fpr n : Nat)
    (events : List Event) :
    csvConvertLoop c lib env (Line.fields kf comps :: ls) fpr n events =
      if 0 < fpr ∧ comps.length + 1 ≠ fpr then ⟨events, Outcome.error (Error.csvFieldCount (n + 1))⟩
      else
        match Atoi kf with
        | Except.error e => ⟨events, Outcome.error e⟩
        | Except.ok key =>
          match makeLen 8 c.dim with
          | none => ⟨events, Outcome.panic⟩
          | some len =>
            match fillVec lib comps 0 (List.replicate len Float64.zero) with
            | FillResult.error e => ⟨events, Outcome.error e⟩
            | FillResult.panic => ⟨events, Outcome.panic⟩
            | FillResult.ok vec =>
              match env.UpdateBinLog events key (f2b lib vec) with
              | some e => ⟨events, Outcome.error e⟩
              | none =>
                csvConvertLoop c lib env ls (if 0 < fpr then fpr else comps.length + 1) (n + 1)
                  (events ++ [Event.UpdateBinLog key Op.UPDATE (f2b lib vec)]) := by
  rw [csvConvertLoop]
  unfold readLine
  by_cases h0 : 0 < fpr
  · by_cases h1 : comps.length + 1 ≠ fpr
    · simp [h0, h1]
    · simp only [h0, List.length_cons, h1, if_true, if_false, true_and,
        List.getElem?_cons_zero, List.drop_succ_cons, List.drop_zero]
  · simp only [h0, List.length_cons, if_false, false_and, List.getElem?_cons_zero,
      List.drop_succ_cons, List.drop_zero]

theorem makeLen_dim (dim : Int) (hdim : 0 ≤ dim) (hfit : 8 * dim < 2 ^ 64) :
    makeLen 8 dim = some dim.toNat := by
  unfold makeLen
  rw [if_pos]
  exact ⟨hdim, by exact_mod_cast hfit⟩

/-- The read loop journals a run of rows of an integer key and `nf ≤ dim`
numeric components, each padded with zeros, and arrives at the line that follows
them. -/
theorem csvConvertLoop_rows (c : csvConverter) (lib : Strconv) (env : Env) (nf : Nat)
    (hdim : 0 ≤ c.dim) (hfit : 8 * c.dim < 2 ^ 64) (hnf : nf ≤ c.dim.toNat)
    (hupd : ∀ ev key payload, env.UpdateBinLog ev key payload = none) :
    ∀ (lines : List Line) (rows : List (Int × List Float64)) (fpr n : Nat)
      (events : List Event) (rest : List Line),
      fpr = 0 ∨ fpr = nf + 1 → numericRows lib nf lines = some rows →
      ∃ fpr1, (fpr1 = 0 ∨ fpr1 = nf + 1) ∧
        csvConvertLoop c lib env (lines ++ rest) fpr n events
          = csvConvertLoop c lib env rest fpr1 (n + lines.length)
              (events ++ rows.map (csvEntry lib c.dim.toNat)) := by
  intro lines
  induction lines with
  | nil =>
    intro rows fpr n events rest hfpr h
    simp only [numericRows, Option.some.injEq] at h
    subst h
    exact ⟨fpr, hfpr, by simp⟩
  | cons l ls ih =>
    intro rows fpr n events rest hfpr h
    cases l with
    | malformed => simp [numericRows] at h
    | fields kf comps =>
      unfold numericRows at h
      cases hk : Atoi kf with
      | error e => rw [hk] at h; simp at h
      | ok key =>
        cases hv : parseFloats lib comps with
        | none => rw [hk, hv] at h; simp at h
        | some vals =>
          cases hr : numericRows lib nf ls with
          | none => rw [hk, hv, hr] at h; simp at h
          | some rs =>
            rw [hk, hv, hr] at h
            by_cases hlen : comps.length = nf
            · simp only [hlen, if_true, Option.some.injEq] at h
              subst h
              have hcount : ¬ (0 < fpr ∧ comps.length + 1 ≠ fpr) := by
                rcases hfpr with h0 | h1
                · omega
                · omega
              have hnext : (if 0 < fpr then fpr else comps.length + 1) = nf + 1 := by
                rcases hfpr with h0 | h1
                · simp [h0, hlen]
                · simp [h1]
              rw [List.cons_append, csvConvertLoop_fields, if_neg hcount, hk]
              simp only [makeLen_dim c.dim hdim hfit,
                fillVec_zeros lib comps vals c.dim.toNat hv (by omega), hupd, hnext]
              obtain ⟨fpr1, hf1, hrun⟩ := ih rs (nf + 1) (n + 1)
                (events ++ [Event.UpdateBinLog key Op.UPDATE (f2b lib (padTo c.dim.toNat vals))])
                rest (Or.inr rfl) hr
              refine ⟨fpr1, hf1, ?_⟩
              rw [hrun]
              simp only [List.length_cons, List.map_cons, csvEntry, List.append_assoc,
                List.singleton_append]
              congr 1
              omega
            · simp [hlen] at h

theorem makeLen_some (size : Nat) (n : Int) (len : Nat) (h : makeLen size n = some len) :
    0 ≤ n ∧ len = n.toNat := by
  unfold makeLen at h
  split_ifs at h with hc
  simp only [Option.some.injEq] at h
  exact ⟨hc.1, h.symm⟩

/-- A row with more than `dim` components stops the read loop: what is added to
the events is at most one entry per earlier row and no `Apply`. -/
theorem csvConvertLoop_long_row (c : csvConverter) (lib : Strconv) (env : Env)
    (kf : List Char) (comps : List (List Char)) (post : List Line)
    (hlong : c.dim < (comps.length : Int)) :
    ∀ (pre : List Line) (fpr n : Nat) (events : List Event),
      ∃ more,
        (csvConvertLoop c lib env (pre ++ Line.fields kf comps :: post) fpr n events).events
          = events ++ more ∧
        more.length ≤ pre.length ∧ Event.Apply ∉ more ∧
        (csvConvertLoop c lib env (pre ++ Line.fields kf comps :: post) fpr n events).outcome
          ≠ Outcome.ok := by
  intro pre
  induction pre with
  | nil =>
    intro fpr n events
    refine ⟨[], ?_⟩
    rw [List.nil_append, csvConvertLoop_fields]
    by_cases hc : 0 < fpr ∧ comps.length + 1 ≠ fpr
    · rw [if_pos hc]
      simp
    · rw [if_neg hc]
      cases Atoi kf with
      | error e => simp
      | ok key =>
        cases hm : makeLen 8 c.dim with
        | none => simp
        | some len =>
          obtain ⟨h0, hl⟩ := makeLen_some 8 c.dim len hm
          have hlt : len < comps.length := by omega
          cases hfill : fillVec lib comps 0 (List.replicate len Float64.zero) with
          | error e => simp [hfill]
          | panic => simp [hfill]
          | ok vec =>
            exact absurd hfill (fillVec_too_long lib comps 0 _ (Nat.zero_le _)
              (by simpa using hlt) vec)
  | cons l ls ih =>
    intro fpr n events
    cases l with
    | malformed =>
      refine ⟨[], ?_⟩
      rw [List.cons_append, csvConvertLoop]
      simp [readLine]
    | fields kf1 comps1 =>
      rw [List.cons_append, csvConvertLoop_fields]
      by_cases hc : 0 < fpr ∧ comps1.length + 1 ≠ fpr
      · rw [if_pos hc]
        exact ⟨[], by simp⟩
      · rw [if_neg hc]
        cases Atoi kf1 with
        | error e => exact ⟨[], by simp⟩
        | ok key =>
          cases makeLen 8 c.dim with
          | none => exact ⟨[], by simp⟩
          | some len =>
            cases hfill : fillVec lib comps1 0 (List.replicate len Float64.zero) with
            | error e => exact ⟨[], by simp [hfill]⟩
            | panic => exact ⟨[], by simp [hfill]⟩
            | ok vec =>
              simp only [hfill]
              cases env.UpdateBinLog events key (f2b lib vec) with
              | some e => exact ⟨[], by simp⟩
              | none =>
                obtain ⟨more, h1, h2, h3, h4⟩ := ih (if 0 < fpr then fpr else comps1.length + 1)
                  (n + 1) (events ++ [Event.UpdateBinLog key Op.UPDATE (f2b lib vec)])
                refine ⟨Event.UpdateBinLog key Op.UPDATE (f2b lib vec) :: more, ?_, ?_, ?_, ?_⟩
                · simp only []
                  rw [h1]
                  simp
                · simp only [List.length_cons]
                  omega
                · simp only [List.mem_cons, not_or]
                  exact ⟨by simp, h3⟩
                · exact h4

theorem numericRows_length (lib : Strconv) (nf : Nat) :
    ∀ (lines : List Line) (rows : List (Int × List Float64)),
      numericRows lib nf lines = some rows →
      rows.length = lines.length ∧ ∀ r ∈ rows, r.2.length = nf := by
  intro lines
  induction lines with
  | nil =>
    intro rows h
    simp only [numericRows, Option.some.injEq] at h
    subst h
    simp
  | cons l ls ih =>
    intro rows h
    cases l with
    | malformed => simp [numericRows] at h
    | fields kf comps =>
      unfold numericRows at h
      cases hk : Atoi kf with
      | error e => rw [hk] at h; simp at h
      | ok key =>
        cases hv : parseFloats lib comps with
        | none => rw [hk, hv] at h; simp at h
        | some vals =>
          cases hr : numericRows lib nf ls with
          | none => rw [hk, hv, hr] at h; simp at h
          | some rs =>
            rw [hk, hv, hr] at h
            by_cases hlen : comps.length = nf
            · simp only [hlen, if_true, Option.some.injEq] at h
              subst h
              obtain ⟨h1, h2⟩ := ih rs hr
              refine ⟨by simp [h1], ?_⟩
              intro r hmem
              rcases List.mem_cons.mp hmem with rfl | hmem
              · simpa [hlen] using parseFloats_length lib comps vals hv
              · exact h2 r hmem
            · simp [hlen] at h

theorem padTo_of_length (dim : Nat) (vals : List Float64) (h : vals.length = dim) :
    padTo dim vals = vals := by
  simp [padTo, h]

/-- The import of a CSV file of rows of an integer key and `nf ≤ dim` numeric
components. -/
theorem csvConvert_rows (c : csvConverter) (lib : Strconv) (env : Env) (file : List Line)
    (rows : List (Int × List Float64)) (nf : Nat)
    (hdim : 0 ≤ c.dim) (hfit : 8 * c.dim < 2 ^ 64) (hnf : nf ≤ c.dim.toNat)
    (hopen : env.OpenFrom = none) (hcreate : env.CreateGraphAndTree = none)
    (hsave : env.Save = none) (hnew : env.NewNGTIndex = none)
    (hupd : ∀ ev key payload, env.UpdateBinLog ev key payload = none)
    (hrows : numericRows lib nf file = some rows) :
    c.Convert lib env file = returnApply env (rows.map (csvEntry lib c.dim.toNat)) := by
  unfold csvConverter.Convert
  simp only [hopen, hcreate, hsave, hnew]
  obtain ⟨fpr1, _, hrun⟩ := csvConvertLoop_rows c lib env nf hdim hfit hnf hupd file rows 0 0 []
    [] (Or.inl rfl) hrows
  rw [List.append_nil] at hrun
  rw [hrun]
  simp [csvConvertLoop]

/-- C8: for every CSV input of `N` well-formed rows, each an integer key
followed by exactly `dim` numeric components, with the index set up and the
journal accepting the appends, `csvConverter.Convert` appends exactly `N`
`UPDATE` entries in row order, the `j`-th keyed by the `j`-th row's first field
and carrying the encoding of that row's components, then invokes `Apply` once,
after the last append, and returns the result of `Apply`. -/
theorem C8_csv_rows_then_apply (c : csvConverter) (lib : Strconv) (env : Env)
    (file : List Line) (rows : List (Int × List Float64))
    (hdim : 0 ≤ c.dim) (hfit : 8 * c.dim < 2 ^ 64)
    (hopen : env.OpenFrom = none) (hcreate : env.CreateGraphAndTree = none)
    (hsave : env.Save = none) (hnew : env.NewNGTIndex = none)
    (hupd : ∀ ev key payload, env.UpdateBinLog ev key payload = none)
    (hrows : numericRows lib c.dim.toNat file = some rows) :
    rows.length = file.length ∧
    (c.Convert lib env file).events
      = rows.map (fun r => Event.UpdateBinLog r.1 Op.UPDATE (f2b lib r.2)) ++ [Event.Apply] ∧
    (c.Convert lib env file).outcome
      = (match env.Apply (rows.map (fun r => Event.UpdateBinLog r.1 Op.UPDATE (f2b lib r.2))) with
        | some e => Outcome.error e
        | none => Outcome.ok) := by
  obtain ⟨hlen, hcomp⟩ := numericRows_length lib c.dim.toNat file rows hrows
  have hmap : rows.map (csvEntry lib c.dim.toNat)
      = rows.map (fun r => Event.UpdateBinLog r.1 Op.UPDATE (f2b lib r.2)) := by
    apply List.map_congr_left
    intro r hr
    simp only [csvEntry, padTo_of_length _ _ (hcomp r hr)]
  have hrun := csvConvert_rows c lib env file rows c.dim.toNat hdim hfit (le_refl _)
    hopen hcreate hsave hnew hupd hrows
  rw [hmap] at hrun
  refine ⟨hlen, ?_, ?_⟩
  · rw [hrun, returnApply_events]
  · rw [hrun, returnApply_outcome]

/-- C8, witness: dimension 2 and the rows `7,1.5,0.5` and `8,1,2`. -/
theorem C8_csv_rows_then_apply_witness :
    (csvConverter.Convert ⟨2, 1⟩ sampleStrconv Env.allOk
        [Line.fields "7".toList ["1.5".toList, "0.5".toList],
          Line.fields "8".toList ["1".toList, "2".toList]]).events
      = [Event.UpdateBinLog 7 Op.UPDATE "\x7b\"features\":[1.5,0.5]\x7d".toList,
          Event.UpdateBinLog 8 Op.UPDATE "\x7b\"features\":[1,2]\x7d".toList,
          Event.Apply] :=
  (C8_csv_rows_then_apply ⟨2, 1⟩ sampleStrconv Env.allOk
    [Line.fields "7".toList ["1.5".toList, "0.5".toList],
      Line.fields "8".toList ["1".toList, "2".toList]]
    [(7, [Float64.onePointFive, ⟨0x3FE0000000000000⟩]),
      (8, [⟨0x3FF0000000000000⟩, ⟨0x4000000000000000⟩])]
    (by decide) (by decide) rfl rfl rfl rfl (fun _ _ _ => rfl) (by decide)).2.1.trans
    (by decide)

/-- C6 (as amended): `csvConverter.Convert` does not compare the number of
components of a row with `dim`.  Let `dim ≥ 0` be a dimension whose vector
`make` can allocate (`8*dim` bytes, at most `maxAlloc = 2^48`), the index be
set up and the journal accept the appends.  For a CSV input whose rows are an
integer key followed by the same number `nf ≤ dim` of numeric components,
every row is journaled, its components followed by zeros up to `dim`
components, so that every entry carries exactly `dim` components, and `Apply`
is called; a row with fewer than `dim` components is not rejected.  No journal
entry is appended for a row with more than `dim` components: the events are at
most one per earlier row, and `Apply` is not invoked. -/
theorem C6_component_count (c : csvConverter) (lib : Strconv) (env : Env)
    (hdim : 0 ≤ c.dim) (halloc : 8 * c.dim ≤ maxAlloc)
    (hopen : env.OpenFrom = none) (hcreate : env.CreateGraphAndTree = none)
    (hsave : env.Save = none) (hnew : env.NewNGTIndex = none)
    (hupd : ∀ ev key payload, env.UpdateBinLog ev key payload = none) :
    (∀ (file : List Line) (rows : List (Int × List Float64)) (nf : Nat),
      nf ≤ c.dim.toNat → numericRows lib nf file = some rows →
      (c.Convert lib env file).events = rows.map (csvEntry lib c.dim.toNat) ++ [Event.Apply] ∧
      (c.Convert lib env file).outcome
        = (match env.Apply (rows.map (csvEntry lib c.dim.toNat)) with
          | some e => Outcome.error e
          | none => Outcome.ok) ∧
      ∀ r ∈ rows, (padTo c.dim.toNat r.2).length = c.dim.toNat) ∧
    (∀ (before after : List Line) (kf : List Char) (comps : List (List Char)),
      c.dim < (comps.length : Int) →
      (c.Convert lib env (before ++ Line.fields kf comps :: after)).events.length
          ≤ before.length ∧
      Event.Apply ∉ (c.Convert lib env (before ++ Line.fields kf comps :: after)).events ∧
      (c.Convert lib env (before ++ Line.fields kf comps :: after)).outcome ≠ Outcome.ok) := by
  have hfit : 8 * c.dim < 2 ^ 64 := by
    unfold maxAlloc at halloc
    norm_num at halloc ⊢
    omega
  constructor
  · intro file rows nf hnf hrows
    have hrun := csvConvert_rows c lib env file rows nf hdim hfit hnf hopen hcreate hsave hnew
      hupd hrows
    refine ⟨by rw [hrun, returnApply_events], by rw [hrun, returnApply_outcome], ?_⟩
    intro r hr
    have hl := (numericRows_length lib nf file rows hrows).2 r hr
    simp only [padTo, List.length_append, List.length_replicate]
    omega
  · intro before after kf comps hlong
    obtain ⟨more, h1, h2, h3, h4⟩ := csvConvertLoop_long_row c lib env kf comps after hlong
      before 0 0 []
    unfold csvConverter.Convert
    simp only [hopen, hcreate, hsave, hnew]
    rw [h1]
    exact ⟨by simpa using h2, by simpa using h3, h4⟩

/-- C6, witness: dimension 2 and the single row `7,1.5`, one component short:
the row is journaled as the vector `[1.5, 0]`. -/
theorem C6_component_count_witness :
    (csvConverter.Convert ⟨2, 1⟩ sampleStrconv Env.allOk
        [Line.fields "7".toList ["1.5".toList]]).events
      = [Event.UpdateBinLog 7 Op.UPDATE "\x7b\"features\":[1.5,0]\x7d".toList, Event.Apply] :=
  ((C6_component_count ⟨2, 1⟩ sampleStrconv Env.allOk (by decide) (by decide) rfl rfl rfl rfl
    (fun _ _ _ => rfl)).1 [Line.fields "7".toList ["1.5".toList]]
    [(7, [Float64.onePointFive])] 1 (by decide) (by decide)).1.trans (by decide)

/-- C6, counterexample: dimension 2 and the single row `7,1.5`, which has one
component instead of two.  `Convert` returns `nil` and the journal holds an
entry for the row. -/
theorem C6_short_row_is_journaled :
    (["1.5".toList] : List (List Char)).length ≠ 2 ∧
    (csvConverter.Convert ⟨2, 1⟩ sampleStrconv Env.allOk
        [Line.fields "7".toList ["1.5".toList]]).outcome = Outcome.ok ∧
    Event.UpdateBinLog 7 Op.UPDATE "\x7b\"features\":[1.5,0]\x7d".toList ∈
      (csvConverter.Convert ⟨2, 1⟩ sampleStrconv Env.allOk
        [Line.fields "7".toList ["1.5".toList]]).events := by
  refine ⟨by decide, by decide, by decide⟩

/-- The first row with a malformed numeric field, the rows before it being well-
formed and the row having at most `dim` components: `Convert` returns an error
for that row (the reader's field-count error, the error of `Atoi` or the error
of `ParseFloat`), the journal holds the earlier rows only and `Apply` is not
called. -/
theorem csvConvert_malformed_row (c : csvConverter) (lib : Strconv) (env : Env)
    (before after : List Line) (kf : List Char) (comps : List (List Char))
    (rows : List (Int × List Float64)) (nf : Nat)
    (hdim : 0 ≤ c.dim) (hfit : 8 * c.dim < 2 ^ 64) (hnf : nf ≤ c.dim.toNat)
    (hopen : env.OpenFrom = none) (hcreate : env.CreateGraphAndTree = none)
    (hsave : env.Save = none) (hnew : env.NewNGTIndex = none)
    (hupd : ∀ ev key payload, env.UpdateBinLog ev key payload = none)
    (hbefore : numericRows lib nf before = some rows)
    (hbad : (∃ e, Atoi kf = Except.error e) ∨ parseFloats lib comps = none)
    (hlen : comps.length ≤ c.dim.toNat) :
    ∃ e, c.Convert lib env (before ++ Line.fields kf comps :: after)
        = ⟨rows.map (csvEntry lib c.dim.toNat), Outcome.error e⟩ ∧
      (e = Error.csvFieldCount (before.length + 1) ∨ Atoi kf = Except.error e ∨
        ∃ f ∈ comps, lib.ParseFloat f = none ∧ e = Error.parseFloat f) := by
  unfold csvConverter.Convert
  simp only [hopen, hcreate, hsave, hnew]
  obtain ⟨fpr1, _, hrun⟩ := csvConvertLoop_rows c lib env nf hdim hfit hnf hupd before rows 0 0 []
    (Line.fields kf comps :: after) (Or.inl rfl) hbefore
  rw [hrun, csvConvertLoop_fields]
  simp only [List.nil_append, Nat.zero_add]
  by_cases hc : 0 < fpr1 ∧ comps.length + 1 ≠ fpr1
  · rw [if_pos hc]
    exact ⟨_, rfl, Or.inl rfl⟩
  · rw [if_neg hc]
    cases hk : Atoi kf with
    | error e => exact ⟨e, rfl, Or.inr (Or.inl rfl)⟩
    | ok key =>
      have hnone : parseFloats lib comps = none := by
        rcases hbad with ⟨e, he⟩ | h
        · rw [hk] at he; cases he
        · exact h
      obtain ⟨f, hf, hfn, hfill⟩ := fillVec_error lib comps 0
        (List.replicate c.dim.toNat Float64.zero) hnone (by simpa using hlen)
      simp only [makeLen_dim c.dim hdim hfit, hfill]
      exact ⟨_, rfl, Or.inr (Or.inr ⟨f, hf, hfn, rfl⟩)⟩

/-- With more fields than slots, the fields up to the first one that has no slot
all parsing, the fill loop panics. -/
theorem fillVec_panics (lib : Strconv) :
    ∀ (comps : List (List Char)) (i : Nat) (vec : List Float64) (vals : List Float64),
      i ≤ vec.length → vec.length < i + comps.length →
      parseFloats lib (comps.take (vec.length - i + 1)) = some vals →
      fillVec lib comps i vec = FillResult.panic := by
  intro comps
  induction comps with
  | nil => intro i vec vals h0 h; simp at h; omega
  | cons f fs ih =>
    intro i vec vals h0 h hp
    simp only [List.length_cons] at h
    rw [List.take_succ_cons] at hp
    unfold parseFloats at hp
    rw [fillVec]
    cases hf : lib.ParseFloat f with
    | none => rw [hf] at hp; simp at hp
    | some v =>
      cases hrest : parseFloats lib (fs.take (vec.length - i)) with
      | none => rw [hf, hrest] at hp; simp at hp
      | some vs =>
        simp only []
        by_cases hi : i < vec.length
        · rw [if_pos hi]
          apply ih (i + 1) (vec.set i v) vs
          · rw [List.length_set]; omega
          · rw [List.length_set]; omega
          · rw [List.length_set]
            have : vec.length - (i + 1) + 1 = vec.length - i := by omega
            rw [this]
            exact hrest
        · rw [if_neg hi]

/-- A first row with an integer key and more than `dim` components of which the
first `dim + 1` are numbers makes `Convert` panic. -/
theorem csvConvert_long_row_panics (c : csvConverter) (lib : Strconv) (env : Env)
    (kf : List Char) (comps : List (List Char)) (rest : List Line) (key : Int)
    (vals : List Float64)
    (hdim : 0 ≤ c.dim) (hfit : 8 * c.dim < 2 ^ 64)
    (hopen : env.OpenFrom = none) (hcreate : env.CreateGraphAndTree = none)
    (hsave : env.Save = none) (hnew : env.NewNGTIndex = none)
    (hkey : Atoi kf = Except.ok key) (hlong : c.dim.toNat < comps.length)
    (hnum : parseFloats lib (comps.take (c.dim.toNat + 1)) = some vals) :
    c.Convert lib env (Line.fields kf comps :: rest) = ⟨[], Outcome.panic⟩ := by
  unfold csvConverter.Convert
  simp only [hopen, hcreate, hsave, hnew]
  rw [csvConvertLoop_fields, if_neg (by omega), hkey]
  have hfill := fillVec_panics lib comps 0 (List.replicate c.dim.toNat Float64.zero) vals
    (Nat.zero_le _) (by simpa using hlong) (by simpa using hnum)
  simp only [makeLen_dim c.dim hdim hfit, hfill]

/-- C5, the code at the failing input: dimension 1 and the single row
`7,1,2,x`, whose last component is no number.  The components `1` and `2`
parse; storing the second one with `vec[1] = feature` into the one-component
`vec` is out of range, and `Convert` ends in a run-time panic before `x` is
parsed: it returns no parse error.  With dimension 3 the same row is answered
with the parse error for `x`. -/
theorem C5_long_row_panics_before_parse_error :
    csvConverter.Convert ⟨1, 1⟩ sampleStrconv Env.allOk
        [Line.fields "7".toList ["1".toList, "2".toList, "x".toList]]
      = ⟨[], Outcome.panic⟩ ∧
    csvConverter.Convert ⟨3, 1⟩ sampleStrconv Env.allOk
        [Line.fields "7".toList ["1".toList, "2".toList, "x".toList]]
      = ⟨[], Outcome.error (Error.parseFloat "x".toList)⟩ := by
  refine ⟨by decide, by decide⟩

/-! ### The database scan -/

/-- Every key the scan registers is a subdirectory of exactly four entries on
which `NewNGTIndex` succeeded. -/
theorem loadDatabases_registered (env : ScanEnv) :
    ∀ (dirs : List FileInfo) (st : Scan) (key : List Char),
      key ∈ (loadDatabases env dirs st).databases →
      key ∈ st.databases ∨
        ∃ dir ∈ dirs, dir.IsDir = true ∧ dir.Name = key ∧
          ∃ files, env.ReadDir key = some files ∧ files.length = 4 ∧
            env.NewNGTIndex key = true := by
  intro dirs
  induction dirs with
  | nil => intro st key h; exact Or.inl h
  | cons dir dirs ih =>
    intro st key h
    have lift : ∀ st1 : Scan, key ∈ (loadDatabases env dirs st1).databases →
        st1.databases = st.databases →
        key ∈ st.databases ∨
          ∃ d ∈ dir :: dirs, d.IsDir = true ∧ d.Name = key ∧
            ∃ files, env.ReadDir key = some files ∧ files.length = 4 ∧
              env.NewNGTIndex key = true := by
      intro st1 h1 heq
      rcases ih st1 key h1 with h2 | ⟨d, hd, hrest⟩
      · exact Or.inl (heq ▸ h2)
      · exact Or.inr ⟨d, List.mem_cons_of_mem _ hd, hrest⟩
    rw [loadDatabases] at h
    by_cases hdir : dir.IsDir = true
    · simp only [hdir, Bool.not_true, Bool.false_eq_true, if_false] at h
      cases hread : env.ReadDir dir.Name with
      | none =>
        rw [hread] at h
        exact lift st h rfl
      | some files =>
        rw [hread] at h
        simp only [] at h
        by_cases hlen : files.length = 4
        · simp only [hlen, ne_eq, not_true_eq_false, if_false] at h
          by_cases hnew : env.NewNGTIndex dir.Name = true
          · simp only [hnew, if_true] at h
            rcases ih _ key h with h2 | ⟨d, hd, hrest⟩
            · simp only [List.mem_append, List.mem_singleton] at h2
              rcases h2 with h3 | h3
              · exact Or.inl h3
              · subst h3
                exact Or.inr ⟨dir, List.mem_cons_self _ _, hdir, rfl, files, hread, hlen, hnew⟩
            · exact Or.inr ⟨d, List.mem_cons_of_mem _ hd, hrest⟩
          · simp only [hnew, if_false] at h
            exact lift _ h rfl
        · simp only [ne_eq, hlen, not_false_eq_true, if_true] at h
          exact lift st h rfl
    · simp only [hdir, Bool.not_false, if_true] at h
      exact lift st h rfl

/-- A subdirectory of exactly four entries is opened whatever the entries are
called, and registered when `NewNGTIndex` succeeds. -/
theorem loadDatabases_opens_four_files (env : ScanEnv) (dir : FileInfo) (files : List FileInfo)
    (hdir : dir.IsDir = true) (hread : env.ReadDir dir.Name = some files)
    (hlen : files.length = 4) :
    (loadDatabases env [dir] ⟨[], []⟩).opened = [dir.Name] ∧
    (loadDatabases env [dir] ⟨[], []⟩).databases
      = (if env.NewNGTIndex dir.Name then [dir.Name] else []) := by
  simp only [loadDatabases, hdir, Bool.not_true, Bool.false_eq_true, if_false, hread, hlen,
    ne_eq, not_true_eq_false, List.nil_append]
  cases env.NewNGTIndex dir.Name <;> simp

/-- C10, the code at the failing input: a subdirectory `db` of four files
named `a`, `b`, `c`, `d`, none of them one of `grp`, `obj`, `prf`, `tre`.  The
scan calls `NewNGTIndex` on it, whether or not that call then succeeds, and
registers it in `databases` when it does.  A subdirectory of three files is
passed over. -/
theorem C10_foreign_files_are_opened :
    contain dbFiles "a".toList = false ∧
    loadDatabases
        ⟨fun _ => some [⟨"a".toList, false⟩, ⟨"b".toList, false⟩, ⟨"c".toList, false⟩,
          ⟨"d".toList, false⟩], fun _ => true⟩
        [⟨"db".toList, true⟩] ⟨[], []⟩
      = ⟨["db".toList], ["db".toList]⟩ ∧
    loadDatabases
        ⟨fun _ => some [⟨"a".toList, false⟩, ⟨"b".toList, false⟩, ⟨"c".toList, false⟩,
          ⟨"d".toList, false⟩], fun _ => false⟩
        [⟨"db".toList, true⟩] ⟨[], []⟩
      = ⟨["db".toList], []⟩ ∧
    loadDatabases
        ⟨fun _ => some [⟨"grp".toList, false⟩, ⟨"obj".toList, false⟩, ⟨"tre".toList, false⟩],
          fun _ => true⟩
        [⟨"db".toList, true⟩] ⟨[], []⟩
      = ⟨[], []⟩ := by
  refine ⟨by decide, by decide, by decide, by decide⟩

end Gannoy
